import Mathlib

/-!
Shallow embedding of `python/bootstrap.py` from arrow-nanoarrow: a regex-based
translator that turns concatenated C headers into a Cython `nanoarrow_c.pxd`
declaration file.  Text is modelled as `List Char`; each Python regex used by
the script is simple enough that its matching behaviour (greedy character
classes, optional groups tried longest-first, leftmost non-overlapping scans)
is implemented directly as a character scan.
-/

namespace Bootstrap

/-- Python `\s` restricted to the ASCII range (the header text is ASCII). -/
def isWS (c : Char) : Bool :=
  c = ' ' || c = '\t' || c = '\n' || c = '\r' || c = '\x0b' || c = '\x0c'

/-- The character class `[A-Za-z0-9_*]` of the return-type group. -/
def isRtChar (c : Char) : Bool :=
  c.isAlpha || c.isDigit || c = '_' || c = '*'

/-- The character class `[A-Za-z0-9]` of the function-name group. -/
def isAlnum (c : Char) : Bool :=
  c.isAlpha || c.isDigit

/-- The macro token replaced on line 33 (`re_max_buffers`, line 79). -/
def maxBuffersTok : List Char := "NANOARROW_MAX_FIXED_BUFFERS".toList

/-- `re.sub(r"NANOARROW_MAX_FIXED_BUFFERS", "3", s)` (bootstrap.py lines 33/79):
every leftmost non-overlapping occurrence of the literal token is replaced by
the single character `3`. -/
def subMaxBuffersL : List Char → List Char
  | [] => []
  | c :: cs =>
    if maxBuffersTok.isPrefixOf (c :: cs) then
      '3' :: subMaxBuffersL ((c :: cs).drop maxBuffersTok.length)
    else
      c :: subMaxBuffersL cs
termination_by s => s.length
decreasing_by
  · have h27 : maxBuffersTok.length = 27 := rfl
    simp only [List.length_drop, List.length_cons, h27]
    omega
  · simp

theorem dropWhile_length_le {α : Type} (p : α → Bool) (l : List α) :
    (l.dropWhile p).length ≤ l.length := by
  induction l with
  | nil => simp
  | cons a l ih =>
    rw [List.dropWhile_cons]
    split
    · simp only [List.length_cons]
      omega
    · simp

/-- The two-character comment opener of `re_comment` (line 78). -/
def commentTok : List Char := "//".toList

/-- `re.sub(r"\s*//[^\n]*", "", s)` (bootstrap.py lines 30/78): at each scan
position, a maximal whitespace run followed by `//` opens a match that extends
to the end of the line; the match is deleted and scanning resumes after it.
(The `\s*` cannot backtrack productively: any shorter whitespace run is
followed by a whitespace character, never by `/`.) -/
def stripCommentsL : List Char → List Char
  | [] => []
  | c :: cs =>
    if h : commentTok.isPrefixOf ((c :: cs).dropWhile isWS) then
      stripCommentsL ((((c :: cs).dropWhile isWS).drop 2).dropWhile (fun x => x ≠ '\n'))
    else
      c :: stripCommentsL cs
termination_by s => s.length
decreasing_by
  · have h1 : ((c :: cs).dropWhile isWS).length ≤ cs.length + 1 := by
      simpa using Bootstrap.dropWhile_length_le isWS (c :: cs)
    have h2 : commentTok.length ≤ ((c :: cs).dropWhile isWS).length :=
      (List.isPrefixOf_iff_prefix.mp h).length_le
    have h3 : commentTok.length = 2 := rfl
    calc ((((c :: cs).dropWhile isWS).drop 2).dropWhile (fun x => x ≠ '\n')).length
        ≤ (((c :: cs).dropWhile isWS).drop 2).length :=
          Bootstrap.dropWhile_length_le _ _
      _ = ((c :: cs).dropWhile isWS).length - 2 := List.length_drop ..
      _ < (c :: cs).length := by simp only [List.length_cons]; omega
  · simp

/-- The literal opener of the include-stripping pattern
`re.sub(r"#include \".*", "", contents)` (bootstrap.py line 190). -/
def includeTok : List Char := "#include \"".toList

/-- Line 190 of bootstrap.py: every occurrence of `#include "` is deleted
together with the rest of its line (`.` does not match a newline). -/
def stripIncludesL : List Char → List Char
  | [] => []
  | c :: cs =>
    if h : includeTok.isPrefixOf (c :: cs) then
      stripIncludesL (((c :: cs).drop includeTok.length).dropWhile (fun x => x ≠ '\n'))
    else
      c :: stripIncludesL cs
termination_by s => s.length
decreasing_by
  · have h3 : includeTok.length = 10 := rfl
    calc (((c :: cs).drop includeTok.length).dropWhile (fun x => x ≠ '\n')).length
        ≤ ((c :: cs).drop includeTok.length).length := Bootstrap.dropWhile_length_le _ _
      _ = (c :: cs).length - includeTok.length := List.length_drop ..
      _ < (c :: cs).length := by simp only [List.length_cons, h3]; omega
  · simp

/-- `re.sub(r"\s+", " ", s)` (bootstrap.py line 131): every maximal whitespace
run is replaced by a single space. -/
def wsCollapseL : List Char → List Char
  | [] => []
  | c :: cs =>
    if isWS c then
      ' ' :: wsCollapseL (cs.dropWhile isWS)
    else
      c :: wsCollapseL cs
termination_by s => s.length
decreasing_by
  · have := Bootstrap.dropWhile_length_le isWS cs
    simp only [List.length_cons]
    omega
  · simp

/-- Python `str.strip()` on ASCII text: drop whitespace from both ends. -/
def stripL (s : List Char) : List Char :=
  ((s.dropWhile isWS).reverse.dropWhile isWS).reverse

/-- `re.split(delim + r"\s*", s)` for a single-character delimiter
(`re_struct_delim = ;\s*`, `re_enum_delim = ,\s*`, lines 92-93): each
delimiter occurrence also swallows the whitespace run that follows it. -/
def splitDelimL (d : Char) : List Char → List (List Char)
  | [] => [[]]
  | c :: cs =>
    if c = d then
      [] :: splitDelimL d (cs.dropWhile isWS)
    else
      match splitDelimL d cs with
      | [] => [[c]]
      | l :: ls => (c :: l) :: ls
termination_by s => s.length
decreasing_by
  · have := Bootstrap.dropWhile_length_le isWS cs
    simp only [List.length_cons]
    omega
  · simp

/-- `re.sub(r"\n +", "\n", s)` (`re_newline_plus_indent`, lines 46/95): a
newline followed by at least one space collapses to a bare newline. -/
def dedentL : List Char → List Char
  | [] => []
  | [c] => [c]
  | c :: c2 :: cs =>
    if c = '\n' ∧ c2 = ' ' then
      '\n' :: dedentL ((c2 :: cs).dropWhile (fun x => x = ' '))
    else
      c :: dedentL (c2 :: cs)
termination_by s => s.length
decreasing_by
  · have := Bootstrap.dropWhile_length_le (fun x => x = ' ') (c2 :: cs)
    simp only [List.length_cons] at this ⊢
    omega
  · simp

/-- The whitespace-separated words of a text (used to state what "internal
whitespace collapsed to single spaces" means in the spec). -/
def wordsL : List Char → List (List Char)
  | [] => []
  | c :: cs =>
    if h : isWS c then
      wordsL cs
    else
      ((c :: cs).takeWhile (fun x => ! isWS x)) :: wordsL ((c :: cs).dropWhile (fun x => ! isWS x))
termination_by s => s.length
decreasing_by
  · simp
  · have hd : (c :: cs).dropWhile (fun x => ! isWS x) = cs.dropWhile (fun x => ! isWS x) := by
      rw [List.dropWhile_cons_of_pos]
      simpa using h
    have := Bootstrap.dropWhile_length_le (fun x => ! isWS x) cs
    simp only [hd, List.length_cons]
    omega

/-- Join words with single spaces. -/
def joinSpace : List (List Char) → List Char
  | [] => []
  | [w] => w
  | w :: ws => w ++ ' ' :: joinSpace ws

/-- The library naming prefix literal `Arrow`. -/
def arrowTok : List Char := "Arrow".toList

/-- One alternative of `re_tagged_type = (struct|union|enum) (Arrow[A-Za-z]+)`
(lines 89-91), tried at the head of `s` for a fixed keyword-plus-space `kwsp`:
on success, returns the name group (`Arrow` plus a maximal nonempty letter run)
and the unconsumed rest of `s`. -/
def tagMatchKw (kwsp : List Char) (s : List Char) : Option (List Char × List Char) :=
  if kwsp.isPrefixOf s then
    if arrowTok.isPrefixOf (s.drop kwsp.length) then
      let s2 := (s.drop kwsp.length).drop 5
      let run := s2.takeWhile Char.isAlpha
      if run = [] then none
      else some (arrowTok ++ run, s2.drop run.length)
    else none
  else none

/-- The full `re_tagged_type` attempt at the head of `s`, alternatives in
regex order.  (At most one keyword can match, as they differ already in their
first character.) -/
def tagMatch (s : List Char) : Option (List Char × List Char) :=
  match tagMatchKw "struct ".toList s with
  | some v => some v
  | none =>
    match tagMatchKw "union ".toList s with
    | some v => some v
    | none => tagMatchKw "enum ".toList s

theorem drop_append_self {α : Type} (l t : List α) : (l ++ t).drop l.length = t :=
  List.drop_left l t

theorem takeWhile_drop_eq_dropWhile {α : Type} (p : α → Bool) (l : List α) :
    l.drop (l.takeWhile p).length = l.dropWhile p := by
  induction l with
  | nil => simp
  | cons a l ih =>
    by_cases h : p a
    · simp [List.takeWhile_cons_of_pos h, List.dropWhile_cons_of_pos h, ih]
    · simp [List.takeWhile_cons_of_neg h, List.dropWhile_cons_of_neg h]

theorem tagMatchKw_some {kwsp s : List Char} {nm rest : List Char}
    (h : tagMatchKw kwsp s = some (nm, rest)) :
    ∃ run : List Char, run ≠ [] ∧ (∀ c ∈ run, c.isAlpha) ∧
      nm = arrowTok ++ run ∧ s = kwsp ++ arrowTok ++ run ++ rest := by
  unfold tagMatchKw at h
  split at h
  case isTrue h1 =>
    split at h
    case isTrue h2 =>
      dsimp only at h
      split at h
      · exact absurd h (by simp)
      case isFalse h3 =>
        obtain ⟨t1, ht1⟩ := List.isPrefixOf_iff_prefix.mp h1
        obtain ⟨t2, ht2⟩ := List.isPrefixOf_iff_prefix.mp h2
        simp only [Option.some.injEq, Prod.mk.injEq] at h
        obtain ⟨hnm, hrest⟩ := h
        have hdk : s.drop kwsp.length = t1 := by
          rw [← ht1, drop_append_self]
        have h5 : arrowTok.length = 5 := rfl
        have hd5 : (s.drop kwsp.length).drop 5 = t2 := by
          rw [← ht2, ← h5, drop_append_self]
        refine ⟨(s.drop kwsp.length).drop 5 |>.takeWhile Char.isAlpha, h3, ?_, hnm.symm, ?_⟩
        · intro c hc
          exact List.mem_takeWhile_imp hc
        · have hB : (s.drop kwsp.length).drop 5 =
              ((s.drop kwsp.length).drop 5).takeWhile Char.isAlpha ++ rest := by
            conv_lhs => rw [← List.takeWhile_append_dropWhile Char.isAlpha ((s.drop kwsp.length).drop 5)]
            rw [← hrest, takeWhile_drop_eq_dropWhile]
          calc s = kwsp ++ t1 := ht1.symm
            _ = kwsp ++ (arrowTok ++ t2) := by rw [ht2, hdk]
            _ = kwsp ++ (arrowTok ++ ((s.drop kwsp.length).drop 5)) := by rw [hd5]
            _ = kwsp ++ arrowTok ++ ((s.drop kwsp.length).drop 5 |>.takeWhile Char.isAlpha) ++ rest := by
                conv_lhs => rw [hB]
                simp [List.append_assoc]
    case isFalse => exact absurd h (by simp)
  case isFalse => exact absurd h (by simp)

theorem tagMatch_some {s nm rest : List Char} (h : tagMatch s = some (nm, rest)) :
    ∃ kwsp run : List Char,
      (kwsp = "struct ".toList ∨ kwsp = "union ".toList ∨ kwsp = "enum ".toList) ∧
      run ≠ [] ∧ (∀ c ∈ run, c.isAlpha) ∧
      nm = arrowTok ++ run ∧ s = kwsp ++ arrowTok ++ run ++ rest := by
  unfold tagMatch at h
  split at h
  case h_1 v heq =>
    cases h
    obtain ⟨run, hr⟩ := tagMatchKw_some heq
    exact ⟨_, run, Or.inl rfl, hr⟩
  case h_2 =>
    split at h
    case h_1 v heq =>
      cases h
      obtain ⟨run, hr⟩ := tagMatchKw_some heq
      exact ⟨_, run, Or.inr (Or.inl rfl), hr⟩
    case h_2 =>
      obtain ⟨run, hr⟩ := tagMatchKw_some h
      exact ⟨_, run, Or.inr (Or.inr rfl), hr⟩

theorem tagMatch_rest_length {s nm rest : List Char} (h : tagMatch s = some (nm, rest)) :
    rest.length < s.length := by
  obtain ⟨kwsp, run, hkw, hrun, -, -, hs⟩ := tagMatch_some h
  have hk : 1 ≤ kwsp.length := by
    rcases hkw with rfl | rfl | rfl <;> simp
  have : s.length = kwsp.length + arrowTok.length + run.length + rest.length := by
    rw [hs]; simp [List.length_append]; omega
  have h5 : arrowTok.length = 5 := rfl
  omega

/-- `re_tagged_type.sub(r"\2", s)` (lines 111/117/132): every tag-keyword
reference `struct|union|enum Arrow<Letters>` is replaced by the bare name. -/
def tagStripL (s : List Char) : List Char :=
  match s with
  | [] => []
  | c :: cs =>
    match h : tagMatch (c :: cs) with
    | some (nm, rest) => nm ++ tagStripL rest
    | none => c :: tagStripL cs
termination_by s.length
decreasing_by
  · exact tagMatch_rest_length h
  · simp

/-- A `re_type` match (lines 81-83, 103-104): groups `type`, `name`, `body`. -/
structure TypeRec where
  kind : List Char
  name : List Char
  body : List Char
deriving DecidableEq

/-- A `re_func_def` match (lines 84-88, 106-107): the `const` group as a
truthiness flag and the groups `return_type`, `name`, `args`. -/
structure FuncRec where
  isConst : Bool
  returnType : List Char
  name : List Char
  args : List Char
deriving DecidableEq

/-- The indent unit passed by `generate_nanoarrow_pxd` (lines 41-43). -/
def ind4 : List Char := "    ".toList

/-- `_typdef_to_cython` (lines 109-112): tag-keyword references are stripped
from the captured body, then `f"{indent}ctypedef {typedef}"` is produced.  The
captured body starts right after the literal `typedef`, so it normally begins
with a space of its own. -/
def typdefToCythonL (t : List Char) (indent : List Char) : List Char :=
  indent ++ "ctypedef ".toList ++ tagStripL t

/-- The delimiter used by `_type_to_cython`: `,` for enums, `;` otherwise. -/
def delimFor (kind : List Char) : Char :=
  if kind = "enum".toList then ',' else ';'

/-- The member/enumerator items of `_type_to_cython` (lines 117-121): the
stripped, tag-stripped body, split on the kind-specific delimiter, empty
segments discarded. -/
def typeItemsL (t : TypeRec) : List (List Char) :=
  (splitDelimL (delimFor t.kind) (tagStripL (stripL t.body))).filter (fun i => i ≠ [])

/-- `_type_to_cython` (lines 114-124): block header plus one further-indented
line per item. -/
def typeToCythonL (t : TypeRec) (indent : List Char) : List Char :=
  indent ++ t.kind ++ ' ' :: t.name ++ ':' ::
    (typeItemsL t).flatMap (fun i => '\n' :: indent ++ "    ".toList ++ i)

/-- `_func_def_to_cython` (lines 126-138): the stripped return type with an
optional `const ` prefix, the name, and the argument text with whitespace
collapsed (line 131), tag keywords stripped (line 132) and a literal `void`
replaced by nothing (lines 135-136). -/
def funcDefToCythonL (d : FuncRec) (indent : List Char) : List Char :=
  indent
    ++ (if d.isConst then "const ".toList ++ stripL d.returnType else stripL d.returnType)
    ++ ' ' :: d.name
    ++ '(' :: (if tagStripL (wsCollapseL (stripL d.args)) = "void".toList then []
        else tagStripL (wsCollapseL (stripL d.args))) ++ [')']

/-- The literal keyword of `re_typedef = typedef(?P<typedef>[^;]+)` (line 80).
Note the pattern has no word boundary and no space after the keyword. -/
def typedefTok : List Char := "typedef".toList

/-- `re_typedef.finditer` (lines 80, 100-101) with match start positions:
at each position, the literal `typedef` followed by a nonempty maximal run of
non-`;` characters (the captured group) is a match; scanning resumes after the
match. -/
def findTypedefsP (p : Nat) : List Char → List (Nat × List Char)
  | [] => []
  | c :: cs =>
    if typedefTok.isPrefixOf (c :: cs) then
      if h : ((c :: cs).drop 7).takeWhile (fun x => x ≠ ';') = [] then
        findTypedefsP (p + 1) cs
      else
        (p, ((c :: cs).drop 7).takeWhile (fun x => x ≠ ';')) ::
          findTypedefsP (p + 7 + (((c :: cs).drop 7).takeWhile (fun x => x ≠ ';')).length)
            (((c :: cs).drop 7).drop ((((c :: cs).drop 7).takeWhile (fun x => x ≠ ';')).length))
    else
      findTypedefsP (p + 1) cs
termination_by s => s.length
decreasing_by
  · simp
  · have hne : ((c :: cs).drop 7).takeWhile (fun x => x ≠ ';') ≠ [] := h
    have hpos : 0 < (((c :: cs).drop 7).takeWhile (fun x => x ≠ ';')).length :=
      List.length_pos.mpr hne
    simp only [List.length_drop, List.length_cons]
    omega
  · simp

/-- One alternative of `re_type = (struct|union|enum) (Arrow[^ ]+) {([^}]*)}`
(lines 81-83), tried at the head of `s` for the keyword `kw` (the `type`
group), with `kwsp` the keyword plus the following literal space.  The name
run `[^ ]+` is a maximal nonempty run of non-space characters, the body
`[^}]*` a maximal run of non-`\x7d` characters. -/
def matchTypeKw (kwsp kw : List Char) (s : List Char) : Option (TypeRec × List Char) :=
  if kwsp.isPrefixOf s then
    if arrowTok.isPrefixOf (s.drop kwsp.length) then
      let s2 := (s.drop kwsp.length).drop 5
      let run := s2.takeWhile (fun x => x ≠ ' ')
      if run = [] then none
      else
        match s2.drop run.length with
        | ' ' :: '\x7b' :: s4 =>
          let body := s4.takeWhile (fun x => x ≠ '\x7d')
          match s4.drop body.length with
          | '\x7d' :: s6 => some (⟨kw, arrowTok ++ run, body⟩, s6)
          | _ => none
        | _ => none
    else none
  else none

/-- The full `re_type` attempt at the head of `s`, alternatives in regex
order. -/
def matchType (s : List Char) : Option (TypeRec × List Char) :=
  match matchTypeKw "struct ".toList "struct".toList s with
  | some v => some v
  | none =>
    match matchTypeKw "union ".toList "union".toList s with
    | some v => some v
    | none => matchTypeKw "enum ".toList "enum".toList s

theorem matchTypeKw_rest_length {kwsp kw s : List Char} {t : TypeRec} {rest : List Char}
    (h : matchTypeKw kwsp kw s = some (t, rest)) : rest.length < s.length := by
  unfold matchTypeKw at h
  split at h
  case isFalse => exact absurd h (by simp)
  case isTrue h1 =>
    split at h
    case isFalse => exact absurd h (by simp)
    case isTrue h2 =>
      dsimp only at h
      split at h
      · exact absurd h (by simp)
      case isFalse h3 =>
        split at h
        case h_2 => exact absurd h (by simp)
        case h_1 s4 heq4 =>
          split at h
          case h_2 => exact absurd h (by simp)
          case h_1 s6 heq6 =>
            simp only [Option.some.injEq, Prod.mk.injEq] at h
            obtain ⟨-, hrest⟩ := h
            have hl4 := congrArg List.length heq4
            have hl6 := congrArg List.length heq6
            simp only [List.length_drop, List.length_cons] at hl4 hl6
            subst hrest
            omega

theorem matchType_rest_length {s : List Char} {t : TypeRec} {rest : List Char}
    (h : matchType s = some (t, rest)) : rest.length < s.length := by
  unfold matchType at h
  split at h
  case h_1 v heq =>
    cases h
    exact matchTypeKw_rest_length heq
  case h_2 =>
    split at h
    case h_1 v heq =>
      cases h
      exact matchTypeKw_rest_length heq
    case h_2 => exact matchTypeKw_rest_length h

/-- `re_type.finditer` (lines 81-83, 103-104) with match start positions. -/
def findTypesP (p : Nat) (s : List Char) : List (Nat × TypeRec) :=
  match s with
  | [] => []
  | c :: cs =>
    match h : matchType (c :: cs) with
    | some (t, rest) => (p, t) :: findTypesP (p + ((c :: cs).length - rest.length)) rest
    | none => findTypesP (p + 1) cs
termination_by s.length
decreasing_by
  · exact matchType_rest_length h
  · simp

/-- Attempt a literal prefix; on success drop it. -/
def tryDrop (pfx : List Char) (s : List Char) : Option (List Char) :=
  if pfx.isPrefixOf s then some (s.drop pfx.length) else none

/-- The mandatory tail of `re_func_def` (lines 84-88) after the optional
groups: `(?P<return_type>[A-Za-z0-9_*]+) (?P<name>Arrow[A-Za-z0-9]+)\((?P<args>[^\)]*)\);`.
Each greedy run is followed by a character outside its class, so the regex
engine's backtracking can never shorten a run productively and the match is
determined by maximal runs. -/
def matchFuncCore (isC : Bool) (s : List Char) : Option (FuncRec × List Char) :=
  if s.takeWhile isRtChar = [] then none
  else
    match s.drop (s.takeWhile isRtChar).length with
    | ' ' :: s2 =>
      if arrowTok.isPrefixOf s2 then
        let nm := (s2.drop 5).takeWhile isAlnum
        if nm = [] then none
        else
          match (s2.drop 5).drop nm.length with
          | '(' :: s5 =>
            let args := s5.takeWhile (fun x => x ≠ ')')
            match s5.drop args.length with
            | ')' :: ';' :: s7 => some (⟨isC, s.takeWhile isRtChar, arrowTok ++ nm, args⟩, s7)
            | _ => none
          | _ => none
      else none
    | _ => none

/-- The optional `(struct |enum )?` group of `re_func_def`: present
alternatives first (regex `?` is greedy), then absent. -/
def matchFuncTag (isC : Bool) (s : List Char) : Option (FuncRec × List Char) :=
  match (tryDrop "struct ".toList s).bind (matchFuncCore isC) with
  | some v => some v
  | none =>
    match (tryDrop "enum ".toList s).bind (matchFuncCore isC) with
    | some v => some v
    | none => matchFuncCore isC s

/-- The optional `(?P<const>const )?` group of `re_func_def`. -/
def matchFuncConst (s : List Char) : Option (FuncRec × List Char) :=
  match (tryDrop "const ".toList s).bind (matchFuncTag true) with
  | some v => some v
  | none => matchFuncTag false s

/-- Everything of `re_func_def` after the leading `\n`, starting with the
optional `(static inline )?` group. -/
def matchFuncBody (s : List Char) : Option (FuncRec × List Char) :=
  match (tryDrop "static inline ".toList s).bind matchFuncConst with
  | some v => some v
  | none => matchFuncConst s

theorem tryDrop_length {pfx s r : List Char} (h : tryDrop pfx s = some r) :
    r.length ≤ s.length := by
  unfold tryDrop at h
  split at h
  · cases h
    simp
  · exact absurd h (by simp)

theorem matchFuncCore_rest_length {isC : Bool} {s : List Char} {d : FuncRec}
    {rest : List Char} (h : matchFuncCore isC s = some (d, rest)) :
    rest.length ≤ s.length := by
  unfold matchFuncCore at h
  split at h
  · exact absurd h (by simp)
  case isFalse h1 =>
    split at h
    case h_2 => exact absurd h (by simp)
    case h_1 s2 heq2 =>
      split at h
      case isFalse => exact absurd h (by simp)
      case isTrue h2 =>
        dsimp only at h
        split at h
        · exact absurd h (by simp)
        case isFalse h3 =>
          split at h
          case h_2 => exact absurd h (by simp)
          case h_1 s5 heq5 =>
            split at h
            case h_2 => exact absurd h (by simp)
            case h_1 s7 heq7 =>
              simp only [Option.some.injEq, Prod.mk.injEq] at h
              obtain ⟨-, hrest⟩ := h
              have hl2 := congrArg List.length heq2
              have hl5 := congrArg List.length heq5
              have hl7 := congrArg List.length heq7
              simp only [List.length_drop, List.length_cons] at hl2 hl5 hl7
              subst hrest
              omega

theorem matchFuncTag_rest_length {isC : Bool} {s : List Char} {d : FuncRec}
    {rest : List Char} (h : matchFuncTag isC s = some (d, rest)) :
    rest.length ≤ s.length := by
  unfold matchFuncTag at h
  split at h
  case h_1 v heq =>
    cases h
    cases hd : tryDrop "struct ".toList s with
    | none => rw [hd] at heq; exact absurd heq (by simp)
    | some s1 =>
      rw [hd] at heq
      simp only [Option.some_bind] at heq
      exact le_trans (matchFuncCore_rest_length heq) (tryDrop_length hd)
  case h_2 =>
    split at h
    case h_1 v heq =>
      cases h
      cases hd : tryDrop "enum ".toList s with
      | none => rw [hd] at heq; exact absurd heq (by simp)
      | some s1 =>
        rw [hd] at heq
        simp only [Option.some_bind] at heq
        exact le_trans (matchFuncCore_rest_length heq) (tryDrop_length hd)
    case h_2 => exact matchFuncCore_rest_length h

theorem matchFuncConst_rest_length {s : List Char} {d : FuncRec}
    {rest : List Char} (h : matchFuncConst s = some (d, rest)) :
    rest.length ≤ s.length := by
  unfold matchFuncConst at h
  split at h
  case h_1 v heq =>
    cases h
    cases hd : tryDrop "const ".toList s with
    | none => rw [hd] at heq; exact absurd heq (by simp)
    | some s1 =>
      rw [hd] at heq
      simp only [Option.some_bind] at heq
      exact le_trans (matchFuncTag_rest_length heq) (tryDrop_length hd)
  case h_2 => exact matchFuncTag_rest_length h

theorem matchFuncBody_rest_length {s : List Char} {d : FuncRec}
    {rest : List Char} (h : matchFuncBody s = some (d, rest)) :
    rest.length ≤ s.length := by
  unfold matchFuncBody at h
  split at h
  case h_1 v heq =>
    cases h
    cases hd : tryDrop "static inline ".toList s with
    | none => rw [hd] at heq; exact absurd heq (by simp)
    | some s1 =>
      rw [hd] at heq
      simp only [Option.some_bind] at heq
      exact le_trans (matchFuncConst_rest_length heq) (tryDrop_length hd)
  case h_2 => exact matchFuncConst_rest_length h

/-- `re_func_def.finditer` (lines 84-88, 106-107) with match start positions.
A match is anchored at a literal `\n`; the rest of the pattern is matched by
`matchFuncBody` on the text after the newline. -/
def findFuncDefsP (p : Nat) (s : List Char) : List (Nat × FuncRec) :=
  match s with
  | [] => []
  | c :: cs =>
    if c = '\n' then
      match h : matchFuncBody cs with
      | some (d, rest) => (p, d) :: findFuncDefsP (p + 1 + (cs.length - rest.length)) rest
      | none => findFuncDefsP (p + 1) cs
    else
      findFuncDefsP (p + 1) cs
termination_by s.length
decreasing_by
  · have := matchFuncBody_rest_length h
    simp only [List.length_cons]
    omega
  · simp
  · simp

/-- `_find_typedefs` (lines 100-101): the captured `typedef` groups in match
order. -/
def findTypedefsL (s : List Char) : List (List Char) :=
  (findTypedefsP 0 s).map Prod.snd

/-- `_find_types` (lines 103-104): the `re_type` records in match order. -/
def findTypesL (s : List Char) : List TypeRec :=
  (findTypesP 0 s).map Prod.snd

/-- `_find_func_defs` (lines 106-107): the `re_func_def` records in match
order. -/
def findFuncDefsL (s : List Char) : List FuncRec :=
  (findFuncDefsP 0 s).map Prod.snd

/-- Lines 30-33 of `generate_nanoarrow_pxd`: comment stripping, then macro
substitution, applied to the content before any extraction. -/
def preprocessL (content : List Char) : List Char :=
  subMaxBuffersL (stripCommentsL content)

/-- Line 41: the `ctypedef` lines, in extraction order. -/
def typedefsCythonL (content : List Char) : List (List Char) :=
  (findTypedefsL (preprocessL content)).map (fun t => typdefToCythonL t ind4)

/-- Line 42: the tagged-type blocks, in extraction order. -/
def typesCythonL (content : List Char) : List (List Char) :=
  (findTypesL (preprocessL content)).map (fun t => typeToCythonL t ind4)

/-- Line 43: the function-declaration lines, in extraction order. -/
def funcDefsCythonL (content : List Char) : List (List Char) :=
  (findFuncDefsL (preprocessL content)).map (fun d => funcDefToCythonL d ind4)

/-- Split a text at the leftmost non-overlapping occurrences of the macro
token; written from the spec sentence "every literal occurrence of the token
`NANOARROW_MAX_FIXED_BUFFERS` is replaced by the numeric literal `3`", as the
list of token-free gaps between consecutive occurrences. -/
def splitMaxBuffersTok : List Char → List (List Char)
  | [] => [[]]
  | c :: cs =>
    if maxBuffersTok.isPrefixOf (c :: cs) then
      [] :: splitMaxBuffersTok ((c :: cs).drop maxBuffersTok.length)
    else
      match splitMaxBuffersTok cs with
      | [] => [[c]]
      | l :: ls => (c :: l) :: ls
termination_by s => s.length
decreasing_by
  · have h27 : maxBuffersTok.length = 27 := rfl
    simp only [List.length_drop, List.length_cons, h27]
    omega
  · simp

/-- Interleave the replacement character `3` between the gaps. -/
def joinWith3 : List (List Char) → List Char
  | [] => []
  | [l] => l
  | l :: ls => l ++ '3' :: joinWith3 ls

theorem splitMaxBuffersTok_ne_nil (s : List Char) : splitMaxBuffersTok s ≠ [] := by
  unfold splitMaxBuffersTok
  match s with
  | [] => simp
  | c :: cs =>
    dsimp only
    split
    · simp
    · split <;> simp

theorem joinWith3_cons_head (c : Char) (l : List Char) (ls : List (List Char)) :
    joinWith3 ((c :: l) :: ls) = c :: joinWith3 (l :: ls) := by
  cases ls <;> simp [joinWith3]

/-- Core fact behind claim C6: the code's literal substitution equals
"split at every occurrence of the token and rejoin with `3`". -/
theorem subMaxBuffers_eq_join_split (s : List Char) :
    subMaxBuffersL s = joinWith3 (splitMaxBuffersTok s) := by
  induction s using subMaxBuffersL.induct with
  | case1 => simp [subMaxBuffersL, splitMaxBuffersTok, joinWith3]
  | case2 c cs hp ih =>
    rw [subMaxBuffersL, splitMaxBuffersTok, if_pos hp, if_pos hp]
    have hne := splitMaxBuffersTok_ne_nil ((c :: cs).drop maxBuffersTok.length)
    cases hsp : splitMaxBuffersTok ((c :: cs).drop maxBuffersTok.length) with
    | nil => exact absurd hsp hne
    | cons l ls => simp [joinWith3, ih, hsp]
  | case3 c cs hp ih =>
    rw [subMaxBuffersL, splitMaxBuffersTok, if_neg hp, if_neg hp]
    have hne := splitMaxBuffersTok_ne_nil cs
    cases hsp : splitMaxBuffersTok cs with
    | nil => exact absurd hsp hne
    | cons l ls =>
      rw [ih, hsp, joinWith3_cons_head]

/-- The template returned by `_pxd_header` (lines 140-163): a newline, then
8-space-indented lines, ending with a newline plus eight spaces. -/
def pxdHeaderRaw : String :=
"
        # Licensed to the Apache Software Foundation (ASF) under one
        # or more contributor license agreements.  See the NOTICE file
        # distributed with this work for additional information
        # regarding copyright ownership.  The ASF licenses this file
        # to you under the Apache License, Version 2.0 (the
        # \"License\"); you may not use this file except in compliance
        # with the License.  You may obtain a copy of the License at
        #
        #   http://www.apache.org/licenses/LICENSE-2.0
        #
        # Unless required by applicable law or agreed to in writing,
        # software distributed under the License is distributed on an
        # \"AS IS\" BASIS, WITHOUT WARRANTIES OR CONDITIONS OF ANY
        # KIND, either express or implied.  See the License for the
        # specific language governing permissions and limitations
        # under the License.

        # cython: language_level = 3

        from libc.stdint cimport int8_t, uint8_t, int16_t, uint16_t
        from libc.stdint cimport int32_t, uint32_t, int64_t, uint64_t
        "

/-- The full byte content written by `generate_nanoarrow_pxd` (lines 28-75):
the de-indented header, the `cdef extern` opener, five manual constants, then
the tagged-type blocks, the typedef lines and the function lines. -/
def generatePxdL (content : List Char) : List Char :=
  dedentL pxdHeaderRaw.toList
    ++ "\ncdef extern from \"nanoarrow.h\" nogil:\n".toList
    ++ '\n' :: "    cdef int NANOARROW_OK\n".toList
    ++ "    cdef int NANOARROW_MAX_FIXED_BUFFERS\n".toList
    ++ "    cdef int ARROW_FLAG_DICTIONARY_ORDERED\n".toList
    ++ "    cdef int ARROW_FLAG_NULLABLE\n".toList
    ++ "    cdef int ARROW_FLAG_MAP_KEYS_SORTED\n".toList
    ++ '\n' :: (typesCythonL content).flatMap (fun b => b ++ "\n\n".toList)
    ++ (typedefsCythonL content).flatMap (fun t => t ++ ['\n'])
    ++ '\n' :: (funcDefsCythonL content).flatMap (fun f => f ++ ['\n'])

/-- The fixed ordered list of header files of `generate_nanoarrow_c`
(lines 175-182). -/
def headerFiles : List String :=
  ["nanoarrow_types.h", "nanoarrow.h", "buffer_inline.h", "array_inline.h"]

/-- The sequential reads of lines 184-186, over a filesystem modelled as a
partial map from file names to contents; a missing or unreadable file is
`none`, which propagates like the uncaught Python `OSError`. -/
def readHeaders (fs : String → Option (List Char)) : List String → Option (List (List Char))
  | [] => some []
  | f :: rest =>
    match fs f with
    | none => none
    | some data =>
      match readHeaders fs rest with
      | none => none
      | some l => some (data :: l)

/-- `"\n".join(header_data)` (line 188). -/
def joinNL : List (List Char) → List Char
  | [] => []
  | [h] => h
  | h :: t => h ++ '\n' :: joinNL t

/-- The pure text transform of `generate_nanoarrow_c` (lines 188-192):
newline-join the file contents, then strip `#include "` occurrences to the
end of their line. -/
def generateContentsL (hs : List (List Char)) : List Char :=
  stripIncludesL (joinNL hs)

/-- `generate_nanoarrow_c` (lines 166-192) over the modelled filesystem. -/
def generateNanoarrowC (fs : String → Option (List Char)) : Option (List Char) :=
  match readHeaders fs headerFiles with
  | none => none
  | some hs => some (generateContentsL hs)

/-- The `__main__` entry point (lines 195-202): the aggregator must fully
succeed before the translator runs and the output file is produced. -/
def mainRunL (fs : String → Option (List Char)) : Option (List Char) :=
  match generateNanoarrowC fs with
  | none => none
  | some contents => some (generatePxdL contents)

/-- Plain split of a text into its newline-separated lines. -/
def splitLinesL : List Char → List (List Char)
  | [] => [[]]
  | c :: cs =>
    if c = '\n' then
      [] :: splitLinesL cs
    else
      match splitLinesL cs with
      | [] => [[c]]
      | l :: ls => (c :: l) :: ls

/-- Truncate a single line at its first occurrence of `#include "`. -/
def truncIncL : List Char → List Char
  | [] => []
  | c :: cs =>
    if includeTok.isPrefixOf (c :: cs) then [] else c :: truncIncL cs

/-- Modelled from the claim wording for the Header Aggregator: concatenate
with newline separators, then remove every line beginning with `#include`
(regardless of quoted or angle-bracket target), replacing it with nothing. -/
def specAggregateL (hs : List (List Char)) : List Char :=
  joinNL ((splitLinesL (joinNL hs)).map
    (fun line => if "#include".toList.isPrefixOf line then [] else line))

theorem splitLinesL_ne_nil (s : List Char) : splitLinesL s ≠ [] := by
  match s with
  | [] => simp [splitLinesL]
  | c :: cs =>
    unfold splitLinesL
    split
    · simp
    · split <;> simp

theorem splitLinesL_cons (c : Char) (cs : List Char) :
    splitLinesL (c :: cs) =
      if c = '\n' then [] :: splitLinesL cs
      else
        match splitLinesL cs with
        | [] => [[c]]
        | l :: ls => (c :: l) :: ls := by
  rw [splitLinesL]

theorem joinNL_cons_head (c : Char) (l : List Char) (ls : List (List Char)) :
    joinNL ((c :: l) :: ls) = c :: joinNL (l :: ls) := by
  cases ls <;> simp [joinNL]

theorem dropWhile_head_not {α : Type} {p : α → Bool} {s t : List α} {c : α}
    (h : s.dropWhile p = c :: t) : p c = false := by
  induction s with
  | nil => simp at h
  | cons a s ih =>
    rw [List.dropWhile_cons] at h
    split at h
    · exact ih h
    case isFalse hp =>
      cases h
      simpa using hp

theorem splitLines_of_dropWhile_nil {s : List Char}
    (h : s.dropWhile (fun x => decide (x ≠ '\n')) = []) : splitLinesL s = [s] := by
  induction s with
  | nil => simp [splitLinesL]
  | cons c cs ih =>
    rw [List.dropWhile_cons] at h
    split at h
    case isTrue hc =>
      have hc' : ¬ c = '\n' := by simpa using hc
      rw [splitLinesL_cons, if_neg hc', ih h]
    case isFalse hc =>
      simp at h

theorem splitLines_of_dropWhile_cons {s tail : List Char} {c : Char}
    (h : s.dropWhile (fun x => decide (x ≠ '\n')) = c :: tail) :
    splitLinesL s = s.takeWhile (fun x => decide (x ≠ '\n')) :: splitLinesL tail := by
  induction s with
  | nil => simp at h
  | cons a s ih =>
    rw [List.dropWhile_cons] at h
    split at h
    case isTrue ha =>
      have ha' : ¬ a = '\n' := by simpa using ha
      rw [splitLinesL_cons, if_neg ha', ih h]
      rw [List.takeWhile_cons]
      simp [ha]
    case isFalse ha =>
      have ha' : a = '\n' := by simpa using ha
      cases h
      rw [splitLinesL_cons, if_pos ha']
      rw [List.takeWhile_cons]
      simp [ha]

/-- The include-token characters are not newlines. -/
theorem includeTok_no_newline :
    ∀ c ∈ includeTok, (fun x => decide (x ≠ '\n')) c = true := by
  decide

/-- Core fact behind claim C2 (amended): the regex substitution of line 190
acts linewise, truncating each line at its first `#include "`. -/
theorem stripIncludes_linewise (s : List Char) :
    stripIncludesL s = joinNL ((splitLinesL s).map truncIncL) := by
  induction s using stripIncludesL.induct with
  | case1 => simp [stripIncludesL, splitLinesL, truncIncL, joinNL]
  | case2 c cs h ih =>
    rw [stripIncludesL, dif_pos h]
    obtain ⟨u, hu⟩ := List.isPrefixOf_iff_prefix.mp h
    have hdrop10 : (c :: cs).drop includeTok.length = u := by
      rw [← hu, drop_append_self]
    have hrest : ((c :: cs).drop includeTok.length).dropWhile (fun x => decide (x ≠ '\n'))
        = (c :: cs).dropWhile (fun x => decide (x ≠ '\n')) := by
      rw [hdrop10, ← hu, List.dropWhile_append_of_pos includeTok_no_newline]
    have htake : (c :: cs).takeWhile (fun x => decide (x ≠ '\n'))
        = includeTok ++ u.takeWhile (fun x => decide (x ≠ '\n')) := by
      rw [← hu, List.takeWhile_append_of_pos includeTok_no_newline]
    have htrunc : truncIncL ((c :: cs).takeWhile (fun x => decide (x ≠ '\n'))) = [] := by
      rw [htake]
      rw [show includeTok ++ u.takeWhile (fun x => decide (x ≠ '\n'))
            = '#' :: ("include \"".toList ++ u.takeWhile (fun x => decide (x ≠ '\n'))) from rfl]
      rw [truncIncL, if_pos]
      exact List.isPrefixOf_iff_prefix.mpr ⟨u.takeWhile (fun x => decide (x ≠ '\n')), rfl⟩
    rw [ih, hrest]
    cases hdw : (c :: cs).dropWhile (fun x => decide (x ≠ '\n')) with
    | nil =>
      have hsplit : splitLinesL (c :: cs) = [c :: cs] := splitLines_of_dropWhile_nil hdw
      have htakeall : (c :: cs).takeWhile (fun x => decide (x ≠ '\n')) = c :: cs := by
        have hrec := List.takeWhile_append_dropWhile (fun x => decide (x ≠ '\n')) (c :: cs)
        rw [hdw] at hrec
        simpa using hrec
      rw [hsplit]
      rw [htakeall] at htrunc
      simp only [List.map_cons, List.map_nil]
      rw [htrunc]
      simp [splitLinesL, truncIncL, joinNL]
    | cons c2 tail =>
      have hc2 : c2 = '\n' := by
        have := dropWhile_head_not hdw
        simpa using this
      subst hc2
      rw [splitLines_of_dropWhile_cons hdw]
      rw [splitLinesL_cons, if_pos rfl]
      simp only [List.map_cons, htrunc]
      cases hsp : (splitLinesL tail).map truncIncL with
      | nil => exact absurd (List.map_eq_nil.mp hsp) (splitLinesL_ne_nil tail)
      | cons l2 ls2 =>
        simp [joinNL, truncIncL]
  | case3 c cs h ih =>
    rw [stripIncludesL, dif_neg h]
    by_cases hcn : c = '\n'
    · subst hcn
      rw [splitLinesL_cons, if_pos rfl]
      simp only [List.map_cons]
      have htr : truncIncL ([] : List Char) = [] := rfl
      rw [htr]
      cases hsp : (splitLinesL cs).map truncIncL with
      | nil => exact absurd (List.map_eq_nil.mp hsp) (splitLinesL_ne_nil cs)
      | cons l2 ls2 =>
        rw [ih, hsp]
        simp [joinNL]
    · rw [splitLinesL_cons, if_neg hcn]
      cases hsp : splitLinesL cs with
      | nil => exact absurd hsp (splitLinesL_ne_nil cs)
      | cons l ls =>
        have hlpre : (l : List Char) <+: cs := by
          cases hdw : cs.dropWhile (fun x => decide (x ≠ '\n')) with
          | nil =>
            have hq := splitLines_of_dropWhile_nil hdw
            rw [hq] at hsp
            cases hsp
            exact List.prefix_refl _
          | cons c2 tail =>
            have hq := splitLines_of_dropWhile_cons hdw
            rw [hq] at hsp
            cases hsp
            exact List.takeWhile_prefix _
        have htr : truncIncL (c :: l) = c :: truncIncL l := by
          rw [truncIncL, if_neg]
          intro hcon
          apply h
          apply List.isPrefixOf_iff_prefix.mpr
          exact (List.isPrefixOf_iff_prefix.mp hcon).trans (List.cons_prefix_cons.mpr ⟨rfl, hlpre⟩)
        simp only [List.map_cons, htr]
        rw [joinNL_cons_head, ih, hsp]
        simp

theorem wsCollapseL_cons (c : Char) (cs : List Char) :
    wsCollapseL (c :: cs) =
      if isWS c then ' ' :: wsCollapseL (cs.dropWhile isWS) else c :: wsCollapseL cs := by
  rw [wsCollapseL]

theorem dropWhile_eq_self_of_all {α : Type} {p : α → Bool} {l : List α}
    (h : ∀ c ∈ l, p c = false) : l.dropWhile p = l := by
  cases l with
  | nil => rfl
  | cons a t => exact List.dropWhile_cons_of_neg (by simp [h a (by simp)])

/-- Right-side whitespace trimming (the second half of Python `str.strip`). -/
def stripRightL (s : List Char) : List Char :=
  (s.reverse.dropWhile isWS).reverse

theorem stripL_eq_stripRight (s : List Char) :
    stripL s = stripRightL (s.dropWhile isWS) := rfl

theorem stripRight_nil_of_all_ws {x : List Char} (h : ∀ c ∈ x, isWS c = true) :
    stripRightL x = [] := by
  unfold stripRightL
  rw [List.dropWhile_eq_nil_iff.mpr (by intro a ha; exact h a (by simpa using ha))]
  rfl

theorem dropWhile_suffix_self {α : Type} (p : α → Bool) (l : List α) :
    l.dropWhile p <:+ l := by
  induction l with
  | nil => exact List.suffix_refl _
  | cons a t ih =>
    rw [List.dropWhile_cons]
    split
    · exact ih.trans (List.suffix_cons a t)
    · exact List.suffix_refl _

theorem stripRight_prefix (x : List Char) : stripRightL x <+: x := by
  have h := dropWhile_suffix_self isWS x.reverse
  have := List.reverse_prefix.mpr h
  simpa [stripRightL] using this

theorem stripRight_append_of_left_nonws {w r : List Char}
    (hw : ∀ c ∈ w, isWS c = false) : stripRightL (w ++ r) = w ++ stripRightL r := by
  unfold stripRightL
  rw [List.reverse_append, List.dropWhile_append]
  split
  case isTrue he =>
    have hr : (r.reverse.dropWhile isWS).reverse = [] := by
      simp [List.isEmpty_iff.mp he]
    rw [hr, List.append_nil]
    rw [dropWhile_eq_self_of_all (by intro c hc; exact hw c (by simpa using hc))]
    simp
  case isFalse he =>
    rw [List.reverse_append]
    simp

theorem stripRight_append_of_right_ne_nil {x r : List Char}
    (hr : stripRightL r ≠ []) : stripRightL (x ++ r) = x ++ stripRightL r := by
  unfold stripRightL at hr ⊢
  rw [List.reverse_append, List.dropWhile_append]
  have hne : (r.reverse.dropWhile isWS).isEmpty = false := by
    cases hq : r.reverse.dropWhile isWS with
    | nil => exact absurd (by simp [hq]) hr
    | cons a t => simp
  rw [if_neg (by simp [hne])]
  rw [List.reverse_append]
  simp

theorem stripRight_ne_nil_of_head {c : Char} {t : List Char} (hc : isWS c = false) :
    stripRightL (c :: t) ≠ [] := by
  intro hcon
  unfold stripRightL at hcon
  have h1 : (c :: t).reverse.dropWhile isWS = [] := by
    have := congrArg List.reverse hcon
    simpa using this
  have h2 := List.dropWhile_eq_nil_iff.mp h1 c (by simp)
  rw [hc] at h2
  exact Bool.false_ne_true h2

theorem wsCollapse_append_nonws {w y : List Char}
    (hw : ∀ c ∈ w, isWS c = false) : wsCollapseL (w ++ y) = w ++ wsCollapseL y := by
  induction w with
  | nil => simp
  | cons a w ih =>
    have ha : isWS a = false := hw a (by simp)
    rw [List.cons_append, wsCollapseL_cons, if_neg (by simp [ha])]
    rw [ih (by intro c hc; exact hw c (by simp [hc]))]
    simp

theorem wsCollapse_ws_block {u z : List Char} (hu : ∀ c ∈ u, isWS c = true)
    (hune : u ≠ []) (hz : z.dropWhile isWS = z) :
    wsCollapseL (u ++ z) = ' ' :: wsCollapseL z := by
  cases u with
  | nil => exact absurd rfl hune
  | cons d u' =>
    rw [List.cons_append, wsCollapseL_cons, if_pos (hu d (by simp))]
    have hdw : (u' ++ z).dropWhile isWS = z := by
      rw [List.dropWhile_append]
      rw [if_pos]
      · exact hz
      · rw [List.dropWhile_eq_nil_iff.mpr (by intro a ha; exact hu a (by simp [ha]))]
        rfl
    rw [hdw]

theorem wordsL_cons_ws {c : Char} (h : isWS c) (cs : List Char) :
    wordsL (c :: cs) = wordsL cs := by
  rw [wordsL, dif_pos h]

theorem wordsL_cons_nonws {c : Char} (h : ¬ isWS c) (cs : List Char) :
    wordsL (c :: cs) = ((c :: cs).takeWhile (fun x => ! isWS x)) ::
      wordsL ((c :: cs).dropWhile (fun x => ! isWS x)) := by
  rw [wordsL, dif_neg h]

theorem wordsL_nil_of_all_ws {s : List Char} (h : ∀ c ∈ s, isWS c = true) :
    wordsL s = [] := by
  induction s with
  | nil => simp [wordsL]
  | cons c cs ih =>
    rw [wordsL_cons_ws (h c (by simp))]
    exact ih (by intro a ha; exact h a (by simp [ha]))

theorem wordsL_dropWhile_ws (s : List Char) :
    wordsL (s.dropWhile isWS) = wordsL s := by
  induction s with
  | nil => rfl
  | cons c cs ih =>
    by_cases hc : isWS c
    · rw [List.dropWhile_cons_of_pos hc, ih, wordsL_cons_ws hc]
    · rw [List.dropWhile_cons_of_neg hc]

theorem joinSpace_cons (w : List Char) (ws : List (List Char)) :
    joinSpace (w :: ws) = w ++ (if ws = [] then [] else ' ' :: joinSpace ws) := by
  cases ws <;> simp [joinSpace]

/-- Core fact behind claim C3: on any argument text, the code's
`re.sub(r"\s+", " ", args.strip())` (line 131) produces exactly the
whitespace-separated words of the text joined by single spaces — the spec's
"internal whitespace collapsed to single spaces". -/
theorem wsCollapse_strip_eq_joinWords (s : List Char) :
    wsCollapseL (stripL s) = joinSpace (wordsL s) := by
  induction s using wordsL.induct with
  | case1 => simp [stripL, wsCollapseL, wordsL, joinSpace]
  | case2 c cs h ih =>
    have hstrip : stripL (c :: cs) = stripL cs := by
      unfold stripL
      rw [List.dropWhile_cons_of_pos h]
    rw [hstrip, wordsL_cons_ws h, ih]
  | case3 c cs h ih =>
    have hc : isWS c = false := by simpa using h
    have hw : ∀ x ∈ (c :: cs).takeWhile (fun x => ! isWS x), isWS x = false := by
      intro x hx
      have := List.mem_takeWhile_imp hx
      simpa using this
    have hsplit : (c :: cs) = (c :: cs).takeWhile (fun x => ! isWS x)
        ++ (c :: cs).dropWhile (fun x => ! isWS x) :=
      (List.takeWhile_append_dropWhile _ _).symm
    have hstrip1 : stripL (c :: cs) = stripRightL (c :: cs) := by
      rw [stripL_eq_stripRight, List.dropWhile_cons_of_neg h]
    rw [hstrip1, wordsL_cons_nonws h, joinSpace_cons]
    conv_lhs => rw [hsplit]
    rw [stripRight_append_of_left_nonws hw, wsCollapse_append_nonws hw]
    congr 1
    set rest := (c :: cs).dropWhile (fun x => ! isWS x) with hrestdef
    cases hdw : rest.dropWhile isWS with
    | nil =>
      have hallws : ∀ x ∈ rest, isWS x = true := List.dropWhile_eq_nil_iff.mp hdw
      rw [stripRight_nil_of_all_ws hallws]
      rw [if_pos (wordsL_nil_of_all_ws hallws)]
      simp [wsCollapseL]
    | cons e rest2 =>
      have he : isWS e = false := dropWhile_head_not hdw
      have hrestsplit : rest = rest.takeWhile isWS ++ (e :: rest2) := by
        conv_lhs => rw [← List.takeWhile_append_dropWhile isWS rest, hdw]
      have hsrne : stripRightL (e :: rest2) ≠ [] := stripRight_ne_nil_of_head he
      have hsr : stripRightL rest = rest.takeWhile isWS ++ stripRightL (e :: rest2) := by
        conv_lhs => rw [hrestsplit]
        exact stripRight_append_of_right_ne_nil hsrne
      have hrestne : rest ≠ [] := by
        intro hcon
        rw [hcon] at hdw
        simp at hdw
      have hresthead : ∃ d rest', rest = d :: rest' ∧ isWS d = true := by
        cases hr : rest with
        | nil => exact absurd hr hrestne
        | cons d rest' =>
          refine ⟨d, rest', rfl, ?_⟩
          have : (fun x => ! isWS x) d = false := by
            apply dropWhile_head_not (p := fun x => ! isWS x) (s := c :: cs)
            rw [← hrestdef, hr]
          simpa using this
      obtain ⟨d, rest', hrd, hdws⟩ := hresthead
      have htkne : rest.takeWhile isWS ≠ [] := by
        rw [hrd, List.takeWhile_cons_of_pos hdws]
        simp
      have htkws : ∀ x ∈ rest.takeWhile isWS, isWS x = true := by
        intro x hx
        exact List.mem_takeWhile_imp hx
      have hz : (stripRightL (e :: rest2)).dropWhile isWS = stripRightL (e :: rest2) := by
        have hpre := stripRight_prefix (e :: rest2)
        cases hq : stripRightL (e :: rest2) with
        | nil => exact absurd hq hsrne
        | cons z1 zt =>
          rw [hq] at hpre
          obtain ⟨hz1, -⟩ := List.cons_prefix_cons.mp hpre
          rw [List.dropWhile_cons_of_neg (by simp [hz1, he])]
      rw [hsr, wsCollapse_ws_block htkws htkne hz]
      have hwordsne : wordsL rest ≠ [] := by
        rw [← wordsL_dropWhile_ws rest, hdw]
        rw [wordsL_cons_nonws (by simp [he])]
        simp
      rw [if_neg hwordsne]
      congr 1
      have hstriprest : stripL rest = stripRightL (e :: rest2) := by
        rw [stripL_eq_stripRight, hdw]
      rw [← hstriprest, ih]

/-- The return-type group of a successful match is a nonempty run of
`[A-Za-z0-9_*]` characters. -/
def goodRt (d : FuncRec) : Prop :=
  d.returnType ≠ [] ∧ ∀ c ∈ d.returnType, isRtChar c = true

theorem matchFuncCore_goodRt {isC : Bool} {s : List Char} {d : FuncRec}
    {rest : List Char} (h : matchFuncCore isC s = some (d, rest)) : goodRt d := by
  unfold matchFuncCore at h
  split at h
  · exact absurd h (by simp)
  case isFalse h1 =>
    split at h
    case h_2 => exact absurd h (by simp)
    case h_1 s2 heq2 =>
      split at h
      case isFalse => exact absurd h (by simp)
      case isTrue h2 =>
        dsimp only at h
        split at h
        · exact absurd h (by simp)
        case isFalse h3 =>
          split at h
          case h_2 => exact absurd h (by simp)
          case h_1 s5 heq5 =>
            split at h
            case h_2 => exact absurd h (by simp)
            case h_1 s7 heq7 =>
              simp only [Option.some.injEq, Prod.mk.injEq] at h
              obtain ⟨hd, -⟩ := h
              subst hd
              exact ⟨h1, by intro c hc; exact List.mem_takeWhile_imp hc⟩

theorem matchFuncTag_goodRt {isC : Bool} {s : List Char} {d : FuncRec}
    {rest : List Char} (h : matchFuncTag isC s = some (d, rest)) : goodRt d := by
  unfold matchFuncTag at h
  split at h
  case h_1 v heq =>
    cases h
    cases hd : tryDrop "struct ".toList s with
    | none => rw [hd] at heq; exact absurd heq (by simp)
    | some s1 =>
      rw [hd] at heq
      simp only [Option.some_bind] at heq
      exact matchFuncCore_goodRt heq
  case h_2 =>
    split at h
    case h_1 v heq =>
      cases h
      cases hd : tryDrop "enum ".toList s with
      | none => rw [hd] at heq; exact absurd heq (by simp)
      | some s1 =>
        rw [hd] at heq
        simp only [Option.some_bind] at heq
        exact matchFuncCore_goodRt heq
    case h_2 => exact matchFuncCore_goodRt h

theorem matchFuncConst_goodRt {s : List Char} {d : FuncRec}
    {rest : List Char} (h : matchFuncConst s = some (d, rest)) : goodRt d := by
  unfold matchFuncConst at h
  split at h
  case h_1 v heq =>
    cases h
    cases hd : tryDrop "const ".toList s with
    | none => rw [hd] at heq; exact absurd heq (by simp)
    | some s1 =>
      rw [hd] at heq
      simp only [Option.some_bind] at heq
      exact matchFuncTag_goodRt heq
  case h_2 => exact matchFuncTag_goodRt h

theorem matchFuncBody_goodRt {s : List Char} {d : FuncRec}
    {rest : List Char} (h : matchFuncBody s = some (d, rest)) : goodRt d := by
  unfold matchFuncBody at h
  split at h
  case h_1 v heq =>
    cases h
    cases hd : tryDrop "static inline ".toList s with
    | none => rw [hd] at heq; exact absurd heq (by simp)
    | some s1 =>
      rw [hd] at heq
      simp only [Option.some_bind] at heq
      exact matchFuncConst_goodRt heq
  case h_2 => exact matchFuncConst_goodRt h

theorem findFuncDefsP_goodRt (p : Nat) (s : List Char) :
    ∀ pr ∈ findFuncDefsP p s, goodRt pr.snd := by
  induction p, s using findFuncDefsP.induct with
  | case1 p =>
    intro pr h
    simp [findFuncDefsP] at h
  | case2 p cs d rest hm ih =>
    intro pr h
    rw [findFuncDefsP, if_pos rfl] at h
    split at h
    case h_1 d' rest' heq =>
      have hsame := hm.symm.trans heq
      simp only [Option.some.injEq, Prod.mk.injEq] at hsame
      obtain ⟨hd, hr⟩ := hsame
      subst hd
      subst hr
      rcases List.mem_cons.mp h with h1 | h2
      · subst h1
        exact matchFuncBody_goodRt hm
      · exact ih pr h2
    case h_2 heq =>
      rw [hm] at heq
      exact absurd heq (by simp)
  | case3 p cs hm ih =>
    intro pr h
    rw [findFuncDefsP, if_pos rfl] at h
    split at h
    case h_1 d' rest' heq =>
      rw [hm] at heq
      exact absurd heq (by simp)
    case h_2 => exact ih pr h
  | case4 p c cs hc ih =>
    intro pr h
    rw [findFuncDefsP, if_neg hc] at h
    exact ih pr h

theorem isRtChar_not_ws {c : Char} (h : isRtChar c = true) : isWS c = false := by
  by_contra hws
  have hws' : isWS c = true := by
    cases hq : isWS c
    · exact absurd hq hws
    · rfl
  have h6 : ((((c = ' ' ∨ c = '\t') ∨ c = '\n') ∨ c = '\r') ∨ c = '\x0b') ∨ c = '\x0c' := by
    simpa [isWS] using hws'
  rcases h6 with ((((rfl | rfl) | rfl) | rfl) | rfl) | rfl <;> simp [isRtChar] at h

theorem stripL_eq_self_of_rt {l : List Char} (h : ∀ c ∈ l, isRtChar c = true) :
    stripL l = l := by
  have hws : ∀ c ∈ l, isWS c = false := by
    intro c hc
    exact isRtChar_not_ws (h c hc)
  unfold stripL
  rw [dropWhile_eq_self_of_all hws]
  rw [dropWhile_eq_self_of_all (by intro c hc; exact hws c (by simpa using hc))]
  simp

theorem splitDelimL_cons (d c : Char) (cs : List Char) :
    splitDelimL d (c :: cs) =
      if c = d then [] :: splitDelimL d (cs.dropWhile isWS)
      else
        match splitDelimL d cs with
        | [] => [[c]]
        | l :: ls => (c :: l) :: ls := by
  rw [splitDelimL]

theorem splitDelimL_ne_nil (d : Char) (s : List Char) : splitDelimL d s ≠ [] := by
  match s with
  | [] => simp [splitDelimL]
  | c :: cs =>
    rw [splitDelimL_cons]
    split
    · simp
    · split <;> simp

theorem splitDelim_prepend {d : Char} {a : List Char} (y : List Char)
    (ha : ∀ c ∈ a, ¬ c = d) :
    ∃ l ls, splitDelimL d y = l :: ls ∧ splitDelimL d (a ++ y) = (a ++ l) :: ls := by
  induction a with
  | nil =>
    cases hy : splitDelimL d y with
    | nil => exact absurd hy (splitDelimL_ne_nil d y)
    | cons l ls => exact ⟨l, ls, rfl, by simpa using hy⟩
  | cons c a ih =>
    obtain ⟨l, ls, hy, hay⟩ := ih (by intro x hx; exact ha x (by simp [hx]))
    refine ⟨l, ls, hy, ?_⟩
    rw [List.cons_append, splitDelimL_cons, if_neg (ha c (by simp)), hay]
    rfl

theorem structSp_mem : ∀ c ∈ "struct ".toList, c.isAlpha = true ∨ c = ' ' := by
  decide

theorem unionSp_mem : ∀ c ∈ "union ".toList, c.isAlpha = true ∨ c = ' ' := by
  decide

theorem enumSp_mem : ∀ c ∈ "enum ".toList, c.isAlpha = true ∨ c = ' ' := by
  decide

theorem arrowTok_mem : ∀ c ∈ arrowTok, c.isAlpha = true := by
  decide

theorem arrowTok_ne_nil : arrowTok ≠ [] := by
  decide

/-- A successful `re_tagged_type` match decomposes `s` into a nonempty span of
letters and spaces followed by the rest, and its replacement `nm` is a
nonempty all-letter text. -/
theorem tagMatch_span {s nm rest : List Char} (h : tagMatch s = some (nm, rest)) :
    ∃ span : List Char, s = span ++ rest ∧ span ≠ [] ∧
      (∀ c ∈ span, c.isAlpha = true ∨ c = ' ') ∧
      nm ≠ [] ∧ (∀ c ∈ nm, c.isAlpha = true) := by
  obtain ⟨kwsp, run, hkw, hrun, hrunalpha, hnm, hs⟩ := tagMatch_some h
  refine ⟨kwsp ++ arrowTok ++ run, by simpa [List.append_assoc] using hs, ?_, ?_, ?_, ?_⟩
  · rcases hkw with rfl | rfl | rfl <;> simp
  · intro c hc
    simp only [List.append_assoc, List.mem_append] at hc
    rcases hc with hc | hc | hc
    · rcases hkw with rfl | rfl | rfl
      · exact structSp_mem c hc
      · exact unionSp_mem c hc
      · exact enumSp_mem c hc
    · exact Or.inl (arrowTok_mem c hc)
    · exact Or.inl (hrunalpha c hc)
  · rw [hnm]
    intro hcon
    exact absurd (List.append_eq_nil.mp hcon).1 arrowTok_ne_nil
  · intro c hc
    rw [hnm] at hc
    rcases List.mem_append.mp hc with hc | hc
    · exact arrowTok_mem c hc
    · exact hrunalpha c hc

theorem tagMatch_head {s nm rest : List Char} (h : tagMatch s = some (nm, rest)) :
    ∃ t, s = 's' :: t ∨ s = 'u' :: t ∨ s = 'e' :: t := by
  obtain ⟨kwsp, run, hkw, -, -, -, hs⟩ := tagMatch_some h
  rcases hkw with rfl | rfl | rfl
  · exact ⟨"truct ".toList ++ arrowTok ++ run ++ rest, Or.inl (by simpa using hs)⟩
  · exact ⟨"nion ".toList ++ arrowTok ++ run ++ rest, Or.inr (Or.inl (by simpa using hs))⟩
  · exact ⟨"num ".toList ++ arrowTok ++ run ++ rest, Or.inr (Or.inr (by simpa using hs))⟩

theorem tagMatch_none_of_ws_head {c : Char} {t : List Char} (hc : isWS c = true) :
    tagMatch (c :: t) = none := by
  cases hq : tagMatch (c :: t) with
  | none => rfl
  | some v =>
    obtain ⟨nm, rest⟩ := v
    obtain ⟨t', ht'⟩ := tagMatch_head hq
    exfalso
    rcases ht' with he | he | he <;>
      · injection he with h1 h2
        subst h1
        revert hc
        decide

theorem tagMatch_none_of_delim_head {c : Char} {t : List Char}
    (hc1 : c.isAlpha = false) :
    tagMatch (c :: t) = none := by
  cases hq : tagMatch (c :: t) with
  | none => rfl
  | some v =>
    obtain ⟨nm, rest⟩ := v
    obtain ⟨t', ht'⟩ := tagMatch_head hq
    exfalso
    rcases ht' with he | he | he <;>
      · injection he with h1 h2
        subst h1
        revert hc1
        decide

theorem tagStripL_cons_match {c : Char} {cs nm rest : List Char}
    (h : tagMatch (c :: cs) = some (nm, rest)) :
    tagStripL (c :: cs) = nm ++ tagStripL rest := by
  rw [tagStripL]
  split
  case h_1 nm' rest' heq =>
    have hsame := h.symm.trans heq
    simp only [Option.some.injEq, Prod.mk.injEq] at hsame
    rw [hsame.1, hsame.2]
  case h_2 heq =>
    rw [h] at heq
    exact absurd heq (by simp)

theorem tagStripL_cons_none {c : Char} {cs : List Char}
    (h : tagMatch (c :: cs) = none) :
    tagStripL (c :: cs) = c :: tagStripL cs := by
  rw [tagStripL]
  split
  case h_1 nm' rest' heq =>
    rw [h] at heq
    exact absurd heq (by simp)
  case h_2 => rfl

theorem tagStrip_ws_block {w z : List Char} (hw : ∀ c ∈ w, isWS c = true) :
    tagStripL (w ++ z) = w ++ tagStripL z := by
  induction w with
  | nil => simp
  | cons c w ih =>
    rw [List.cons_append,
      tagStripL_cons_none (tagMatch_none_of_ws_head (hw c (by simp)))]
    rw [ih (by intro x hx; exact hw x (by simp [hx]))]
    simp

theorem tagStrip_head_not_ws {e : Char} {t : List Char} (he : isWS e = false) :
    ∃ e' t', tagStripL (e :: t) = e' :: t' ∧ isWS e' = false := by
  cases hq : tagMatch (e :: t) with
  | some v =>
    obtain ⟨nm, rest⟩ := v
    obtain ⟨span, -, -, -, hnmne, hnmalpha⟩ := tagMatch_span hq
    rw [tagStripL_cons_match hq]
    cases hnm : nm with
    | nil => exact absurd hnm hnmne
    | cons n1 nt =>
      refine ⟨n1, nt ++ tagStripL rest, by simp, ?_⟩
      have h1 : n1.isAlpha = true := hnmalpha n1 (by simp [hnm])
      exact isRtChar_not_ws (by simp [isRtChar, h1])
  | none =>
    rw [tagStripL_cons_none hq]
    exact ⟨e, tagStripL t, rfl, he⟩

theorem tagStrip_dropWhile_ws (cs : List Char) :
    (tagStripL cs).dropWhile isWS = tagStripL (cs.dropWhile isWS) := by
  have hsplit : cs = cs.takeWhile isWS ++ cs.dropWhile isWS :=
    (List.takeWhile_append_dropWhile isWS cs).symm
  have htk : ∀ c ∈ cs.takeWhile isWS, isWS c = true := by
    intro c hc
    exact List.mem_takeWhile_imp hc
  conv_lhs => rw [hsplit]
  rw [tagStrip_ws_block htk, List.dropWhile_append]
  cases hdrop : cs.dropWhile isWS with
  | nil =>
    simp [tagStripL, List.dropWhile_eq_nil_iff.mpr htk]
  | cons e t =>
    have he : isWS e = false := dropWhile_head_not hdrop
    obtain ⟨e', t', hst, he'⟩ := tagStrip_head_not_ws he
    rw [hst]
    rw [if_pos (by simp [List.dropWhile_eq_nil_iff.mpr htk])]
    rw [List.dropWhile_cons_of_neg (by simp [he'])]

/-- Core fact behind claim C4 (amended): tag-keyword stripping changes neither
the number of delimiter-split segments nor which of them are empty, for the
delimiters actually used (`;` and `,`). -/
theorem splitDelim_tagStrip_emptiness (d : Char) (hd1 : d.isAlpha = false)
    (hd2 : d ≠ ' ') :
    ∀ s : List Char, (splitDelimL d (tagStripL s)).map (fun l => l.isEmpty)
      = (splitDelimL d s).map (fun l => l.isEmpty) := by
  have main : ∀ n : Nat, ∀ s : List Char, s.length ≤ n →
      (splitDelimL d (tagStripL s)).map (fun l => l.isEmpty)
        = (splitDelimL d s).map (fun l => l.isEmpty) := by
    intro n
    induction n with
    | zero =>
      intro s hs
      have : s = [] := List.length_eq_zero.mp (Nat.le_zero.mp hs)
      subst this
      simp [tagStripL]
    | succ n ih =>
      intro s hs
      cases s with
      | nil => simp [tagStripL]
      | cons c cs =>
        cases hq : tagMatch (c :: cs) with
        | some v =>
          obtain ⟨nm, rest⟩ := v
          obtain ⟨span, hspan, hspanne, hspanmem, hnmne, hnmalpha⟩ := tagMatch_span hq
          have hrestlen : rest.length < (c :: cs).length := tagMatch_rest_length hq
          have hspannod : ∀ x ∈ span, ¬ x = d := by
            intro x hx hxd
            subst hxd
            rcases hspanmem x hx with ha | ha
            · rw [hd1] at ha
              exact Bool.false_ne_true ha
            · exact hd2 ha
          have hnmnod : ∀ x ∈ nm, ¬ x = d := by
            intro x hx hxd
            subst hxd
            have := hnmalpha x hx
            rw [hd1] at this
            exact Bool.false_ne_true this
          rw [tagStripL_cons_match hq]
          obtain ⟨l, ls, hy, hay⟩ := splitDelim_prepend (d := d) (tagStripL rest) hnmnod
          obtain ⟨l2, ls2, hy2, hay2⟩ := splitDelim_prepend (d := d) rest hspannod
          rw [hay]
          conv_rhs => rw [hspan, hay2]
          have hih := ih rest (by
            simp only [List.length_cons] at hrestlen hs
            omega)
          rw [hy, hy2] at hih
          simp only [List.map_cons, List.cons.injEq] at hih
          simp only [List.map_cons, List.cons.injEq]
          constructor
          · cases hnmc : nm with
            | nil => exact absurd hnmc hnmne
            | cons a b =>
              cases hspc : span with
              | nil => exact absurd hspc hspanne
              | cons a2 b2 => simp
          · exact hih.2
        | none =>
          rw [tagStripL_cons_none hq]
          by_cases hcd : c = d
          · subst hcd
            rw [splitDelimL_cons, if_pos rfl, splitDelimL_cons, if_pos rfl]
            simp only [List.map_cons, List.cons.injEq]
            refine ⟨trivial, ?_⟩
            rw [tagStrip_dropWhile_ws]
            apply ih
            have h1 := dropWhile_length_le isWS cs
            simp only [List.length_cons] at hs
            omega
          · rw [splitDelimL_cons, if_neg hcd, splitDelimL_cons, if_neg hcd]
            have hih := ih cs (by
              simp only [List.length_cons] at hs
              omega)
            cases hy : splitDelimL d (tagStripL cs) with
            | nil => exact absurd hy (splitDelimL_ne_nil d _)
            | cons l ls =>
              cases hy2 : splitDelimL d cs with
              | nil => exact absurd hy2 (splitDelimL_ne_nil d _)
              | cons l2 ls2 =>
                rw [hy, hy2] at hih
                simp only [List.map_cons, List.cons.injEq] at hih
                simp only [List.map_cons, List.cons.injEq]
                exact ⟨by simp, hih.2⟩
  intro s
  exact main s.length s (le_refl _)

/-- Match start positions reported by the typedef scan are at least the
starting offset, and strictly increase left to right. -/
theorem findTypedefsP_mono (p : Nat) (s : List Char) :
    (∀ pr ∈ findTypedefsP p s, p ≤ pr.fst) ∧
      List.Chain' (· < ·) ((findTypedefsP p s).map Prod.fst) := by
  induction p, s using findTypedefsP.induct with
  | case1 p =>
    constructor
    · intro pr h
      simp [findTypedefsP] at h
    · simp [findTypedefsP]
  | case2 p c cs hpf hbody ih =>
    rw [findTypedefsP, if_pos hpf, dif_pos hbody]
    exact ⟨fun pr h => le_trans (by omega) (ih.1 pr h), ih.2⟩
  | case3 p c cs hpf hbody ih =>
    rw [findTypedefsP, if_pos hpf, dif_neg hbody]
    constructor
    · intro pr h
      rcases List.mem_cons.mp h with h1 | h2
      · subst h1
        exact le_refl _
      · exact le_trans (by omega) (ih.1 pr h2)
    · rw [List.map_cons]
      rw [List.chain'_cons']
      constructor
      · intro y hy
        obtain ⟨pr, hpr, rfl⟩ := List.mem_map.mp (List.mem_of_mem_head? hy)
        have := ih.1 pr hpr
        omega
      · exact ih.2
  | case4 p c cs hpf ih =>
    rw [findTypedefsP, if_neg hpf]
    exact ⟨fun pr h => le_trans (by omega) (ih.1 pr h), ih.2⟩

/-- Same monotonicity for the tagged-type scan. -/
theorem findTypesP_mono (p : Nat) (s : List Char) :
    (∀ pr ∈ findTypesP p s, p ≤ pr.fst) ∧
      List.Chain' (· < ·) ((findTypesP p s).map Prod.fst) := by
  induction p, s using findTypesP.induct with
  | case1 p =>
    constructor
    · intro pr h
      simp [findTypesP] at h
    · simp [findTypesP]
  | case2 p c cs t rest hm ih =>
    have hlen := matchType_rest_length hm
    rw [findTypesP]
    split
    case h_1 t' rest' heq =>
      have hsame := hm.symm.trans heq
      simp only [Option.some.injEq, Prod.mk.injEq] at hsame
      obtain ⟨h1, h2⟩ := hsame
      subst h1
      subst h2
      constructor
      · intro pr h
        rcases List.mem_cons.mp h with hh | hh
        · subst hh
          exact le_refl _
        · exact le_trans (by omega) (ih.1 pr hh)
      · rw [List.map_cons, List.chain'_cons']
        constructor
        · intro y hy
          obtain ⟨pr, hpr, rfl⟩ := List.mem_map.mp (List.mem_of_mem_head? hy)
          have h1 := ih.1 pr hpr
          have h2 : 1 ≤ (c :: cs).length - rest.length := by
            simp only [List.length_cons] at hlen ⊢
            omega
          omega
        · exact ih.2
    case h_2 heq =>
      rw [hm] at heq
      exact absurd heq (by simp)
  | case3 p c cs hm ih =>
    rw [findTypesP]
    split
    case h_1 t' rest' heq =>
      rw [hm] at heq
      exact absurd heq (by simp)
    case h_2 =>
      exact ⟨fun pr h => le_trans (by omega) (ih.1 pr h), ih.2⟩

/-- Same monotonicity for the function-prototype scan. -/
theorem findFuncDefsP_mono (p : Nat) (s : List Char) :
    (∀ pr ∈ findFuncDefsP p s, p ≤ pr.fst) ∧
      List.Chain' (· < ·) ((findFuncDefsP p s).map Prod.fst) := by
  induction p, s using findFuncDefsP.induct with
  | case1 p =>
    constructor
    · intro pr h
      simp [findFuncDefsP] at h
    · simp [findFuncDefsP]
  | case2 p cs d rest hm ih =>
    rw [findFuncDefsP, if_pos rfl]
    split
    case h_1 d' rest' heq =>
      have hsame := hm.symm.trans heq
      simp only [Option.some.injEq, Prod.mk.injEq] at hsame
      obtain ⟨h1, h2⟩ := hsame
      subst h1
      subst h2
      constructor
      · intro pr h
        rcases List.mem_cons.mp h with hh | hh
        · subst hh
          exact le_refl _
        · exact le_trans (by omega) (ih.1 pr hh)
      · rw [List.map_cons, List.chain'_cons']
        constructor
        · intro y hy
          obtain ⟨pr, hpr, rfl⟩ := List.mem_map.mp (List.mem_of_mem_head? hy)
          have h1 := ih.1 pr hpr
          omega
        · exact ih.2
    case h_2 heq =>
      rw [hm] at heq
      exact absurd heq (by simp)
  | case3 p cs hm ih =>
    rw [findFuncDefsP, if_pos rfl]
    split
    case h_1 d' rest' heq =>
      rw [hm] at heq
      exact absurd heq (by simp)
    case h_2 =>
      exact ⟨fun pr h => le_trans (by omega) (ih.1 pr h), ih.2⟩
  | case4 p c cs hc ih =>
    rw [findFuncDefsP, if_neg hc]
    exact ⟨fun pr h => le_trans (by omega) (ih.1 pr h), ih.2⟩

/-- The records returned by the typedef scan do not depend on the position
counter. -/
theorem findTypedefsP_snd_indep (p q : Nat) (s : List Char) :
    (findTypedefsP p s).map Prod.snd = (findTypedefsP q s).map Prod.snd := by
  induction p, s using findTypedefsP.induct generalizing q with
  | case1 p => simp [findTypedefsP]
  | case2 p c cs hpf hbody ih =>
    rw [findTypedefsP, findTypedefsP, if_pos hpf, if_pos hpf, dif_pos hbody, dif_pos hbody]
    exact ih _
  | case3 p c cs hpf hbody ih =>
    rw [findTypedefsP, findTypedefsP, if_pos hpf, if_pos hpf, dif_neg hbody, dif_neg hbody]
    simp only [List.map_cons, List.cons.injEq]
    exact ⟨trivial, ih _⟩
  | case4 p c cs hpf ih =>
    rw [findTypedefsP, findTypedefsP, if_neg hpf, if_neg hpf]
    exact ih _

theorem findTypesP_cons_some {c : Char} {cs : List Char} {t : TypeRec} {rest : List Char}
    (h : matchType (c :: cs) = some (t, rest)) (p : Nat) :
    findTypesP p (c :: cs) = (p, t) :: findTypesP (p + ((c :: cs).length - rest.length)) rest := by
  rw [findTypesP]
  split
  case h_1 t' rest' heq =>
    have hsame := h.symm.trans heq
    simp only [Option.some.injEq, Prod.mk.injEq] at hsame
    rw [hsame.1, hsame.2]
  case h_2 heq =>
    rw [h] at heq
    exact absurd heq (by simp)

theorem findTypesP_cons_none {c : Char} {cs : List Char}
    (h : matchType (c :: cs) = none) (p : Nat) :
    findTypesP p (c :: cs) = findTypesP (p + 1) cs := by
  rw [findTypesP]
  split
  case h_1 t' rest' heq =>
    rw [h] at heq
    exact absurd heq (by simp)
  case h_2 => rfl

/-- Evaluation-friendly restatement of the `findTypesP` step. -/
theorem findTypesP_cons (p : Nat) (c : Char) (cs : List Char) :
    findTypesP p (c :: cs) =
      match matchType (c :: cs) with
      | some (t, rest) => (p, t) :: findTypesP (p + ((c :: cs).length - rest.length)) rest
      | none => findTypesP (p + 1) cs := by
  cases hq : matchType (c :: cs) with
  | some v =>
    obtain ⟨t, rest⟩ := v
    rw [findTypesP_cons_some hq]
  | none =>
    rw [findTypesP_cons_none hq]

theorem findFuncDefsP_nl_some {cs : List Char} {d : FuncRec} {rest : List Char}
    (h : matchFuncBody cs = some (d, rest)) (p : Nat) :
    findFuncDefsP p ('\n' :: cs) = (p, d) :: findFuncDefsP (p + 1 + (cs.length - rest.length)) rest := by
  rw [findFuncDefsP, if_pos rfl]
  split
  case h_1 d' rest' heq =>
    have hsame := h.symm.trans heq
    simp only [Option.some.injEq, Prod.mk.injEq] at hsame
    rw [hsame.1, hsame.2]
  case h_2 heq =>
    rw [h] at heq
    exact absurd heq (by simp)

theorem findFuncDefsP_nl_none {cs : List Char}
    (h : matchFuncBody cs = none) (p : Nat) :
    findFuncDefsP p ('\n' :: cs) = findFuncDefsP (p + 1) cs := by
  rw [findFuncDefsP, if_pos rfl]
  split
  case h_1 d' rest' heq =>
    rw [h] at heq
    exact absurd heq (by simp)
  case h_2 => rfl

/-- Evaluation-friendly restatement of the `findFuncDefsP` step. -/
theorem findFuncDefsP_cons (p : Nat) (c : Char) (cs : List Char) :
    findFuncDefsP p (c :: cs) =
      if c = '\n' then
        match matchFuncBody cs with
        | some (d, rest) => (p, d) :: findFuncDefsP (p + 1 + (cs.length - rest.length)) rest
        | none => findFuncDefsP (p + 1) cs
      else findFuncDefsP (p + 1) cs := by
  by_cases hc : c = '\n'
  · subst hc
    rw [if_pos rfl]
    cases hq : matchFuncBody cs with
    | some v =>
      obtain ⟨d, rest⟩ := v
      rw [findFuncDefsP_nl_some hq]
    | none =>
      rw [findFuncDefsP_nl_none hq]
  · rw [if_neg hc, findFuncDefsP, if_neg hc]

theorem findTypesP_nil (p : Nat) : findTypesP p [] = [] := by
  rw [findTypesP]

theorem findFuncDefsP_nil (p : Nat) : findFuncDefsP p [] = [] := by
  rw [findFuncDefsP]

theorem findTypedefsP_nil (p : Nat) : findTypedefsP p [] = [] := by
  rw [findTypedefsP]

theorem tagStripL_nil : tagStripL [] = [] := by
  rw [tagStripL]

/-- Evaluation-friendly restatement of the `tagStripL` step. -/
theorem tagStripL_cons (c : Char) (cs : List Char) :
    tagStripL (c :: cs) =
      match tagMatch (c :: cs) with
      | some (nm, rest) => nm ++ tagStripL rest
      | none => c :: tagStripL cs := by
  cases hq : tagMatch (c :: cs) with
  | some v =>
    obtain ⟨nm, rest⟩ := v
    rw [tagStripL_cons_match hq]
  | none =>
    rw [tagStripL_cons_none hq]

theorem isPrefixOf_append_self (a b : List Char) : a.isPrefixOf (a ++ b) = true :=
  List.isPrefixOf_iff_prefix.mpr ⟨b, rfl⟩

/-- Core fact behind claim C10 (amended): an anchored `typedef` followed by a
nonempty run of non-`;` characters yields exactly one record whose body is
that run, and scanning continues after it. -/
theorem findTypedefs_anchor (body post : List Char) (hne : body ≠ [])
    (hnosemi : ∀ c ∈ body, ¬ c = ';') :
    findTypedefsL (typedefTok ++ (body ++ ';' :: post)) = body :: findTypedefsL post := by
  have hcons : typedefTok ++ (body ++ ';' :: post)
      = 't' :: ("ypedef".toList ++ (body ++ ';' :: post)) := rfl
  have hpf : typedefTok.isPrefixOf ('t' :: ("ypedef".toList ++ (body ++ ';' :: post))) = true := by
    rw [← hcons]
    exact isPrefixOf_append_self _ _
  have hdrop : ('t' :: ("ypedef".toList ++ (body ++ ';' :: post))).drop 7 = body ++ ';' :: post := by
    rw [← hcons, show (7 : Nat) = typedefTok.length from rfl]
    exact drop_append_self _ _
  have htw : (body ++ ';' :: post).takeWhile (fun x => decide (x ≠ ';')) = body := by
    rw [List.takeWhile_append_of_pos (by intro a ha; simpa using hnosemi a ha)]
    rw [List.takeWhile_cons_of_neg (by simp)]
    simp
  have hdrop2 : (body ++ ';' :: post).drop body.length = ';' :: post :=
    drop_append_self _ _
  unfold findTypedefsL
  rw [hcons, findTypedefsP, if_pos hpf, hdrop, htw, dif_neg hne, hdrop2]
  simp only [List.map_cons, List.cons.injEq]
  refine ⟨trivial, ?_⟩
  have hsemi : ¬ typedefTok.isPrefixOf (';' :: post) = true := by
    intro hq
    have hcon := List.isPrefixOf_iff_prefix.mp hq
    rw [show typedefTok = 't' :: "ypedef".toList from rfl] at hcon
    obtain ⟨h1, -⟩ := List.cons_prefix_cons.mp hcon
    exact absurd h1 (by decide)
  rw [findTypedefsP, if_neg hsemi]
  exact findTypedefsP_snd_indep _ 0 post

/-- Core fact behind claim C8: if any listed header is unreadable, the reads
of lines 184-186 fail as a whole. -/
theorem readHeaders_none {fs : String → Option (List Char)} :
    ∀ {files : List String}, (∃ f ∈ files, fs f = none) → readHeaders fs files = none := by
  intro files
  induction files with
  | nil =>
    rintro ⟨f, hf, -⟩
    simp at hf
  | cons g rest ih =>
    rintro ⟨f, hf, hnone⟩
    rcases List.mem_cons.mp hf with rfl | hmem
    · simp [readHeaders, hnone]
    · unfold readHeaders
      cases fs g with
      | none => rfl
      | some data =>
        rw [ih ⟨f, hmem, hnone⟩]

theorem filter_length_eq_of_isEmpty_map {l1 l2 : List (List Char)}
    (h : l1.map (fun l => l.isEmpty) = l2.map (fun l => l.isEmpty)) :
    (l1.filter (fun i => i ≠ [])).length = (l2.filter (fun i => i ≠ [])).length := by
  induction l1 generalizing l2 with
  | nil =>
    cases l2 with
    | nil => rfl
    | cons b t2 => simp at h
  | cons a t1 ih =>
    cases l2 with
    | nil => simp at h
    | cons b t2 =>
      simp only [List.map_cons, List.cons.injEq] at h
      obtain ⟨hab, ht⟩ := h
      rw [List.filter_cons, List.filter_cons]
      have hiff : (decide (a ≠ []) = true) ↔ (decide (b ≠ []) = true) := by
        constructor
        · intro ha
          have ha' : a ≠ [] := of_decide_eq_true ha
          have : a.isEmpty = false := by
            cases a
            · exact absurd rfl ha'
            · rfl
          rw [this] at hab
          cases b
          · simp at hab
          · simp
        · intro hb
          have hb' : b ≠ [] := of_decide_eq_true hb
          have : b.isEmpty = false := by
            cases b
            · exact absurd rfl hb'
            · rfl
          rw [this] at hab
          cases a
          · simp at hab
          · simp
      by_cases hcase : decide (a ≠ []) = true
      · rw [if_pos hcase, if_pos (hiff.mp hcase)]
        simp only [List.length_cons]
        rw [ih ht]
      · rw [if_neg hcase, if_neg (fun hb => hcase (hiff.mpr hb))]
        exact ih ht

theorem delimFor_not_alpha (kind : List Char) : (delimFor kind).isAlpha = false := by
  unfold delimFor
  split <;> decide

theorem delimFor_ne_space (kind : List Char) : delimFor kind ≠ ' ' := by
  unfold delimFor
  split <;> decide

/-! ## Concrete inputs used by the claims -/

/-- The end-to-end input of claim C1. -/
def c1contentL : List Char :=
  ("typedef int32_t ArrowErrorCode;\nstruct ArrowBuffer { uint8_t* data; int64_t size_bytes; };\nArrowErrorCode ArrowBufferInit(struct ArrowBuffer* buffer);").toList

/-- A tagged type whose body is a single space (claim C4). -/
def c4contentL : List Char := ("struct ArrowX { }").toList

/-- A prototype with a function-pointer argument (unsupported grammar) next
to a supported one (claim C9). -/
def c9contentL : List Char :=
  ("\nArrowErrorCode ArrowBad(int (*cb)(void));\nArrowErrorCode ArrowGood(void);").toList

/-- A supported prototype with ragged interior whitespace (claim C3). -/
def c3contentL : List Char := ("\nint ArrowFn(struct  ArrowBuffer*  b,   int n);").toList

/-- The record `re_func_def` extracts from `c3contentL`. -/
def c3recd : FuncRec :=
  ⟨false, ("int").toList, ("ArrowFn").toList, ("struct  ArrowBuffer*  b,   int n").toList⟩

set_option maxRecDepth 40000
set_option maxHeartbeats 4000000

/-! ## The claims -/

/-- C1 (counterexample): on the spec's end-to-end input — a typedef, the
`ArrowBuffer` struct and the `ArrowBufferInit` prototype — the claim says the
translator emits the line `ctypedef int32_t ArrowErrorCode`.  The code emits
`    ctypedef  int32_t ArrowErrorCode` with two spaces after `ctypedef`:
`re_typedef` (line 80) has no space after the keyword, so the captured group
keeps its leading space, and line 112 inserts another one.  The claimed
single-space text does not occur in the emitted line at all. -/
theorem c1_counterexample :
    typedefsCythonL c1contentL = [("    ctypedef  int32_t ArrowErrorCode").toList] ∧
    ¬ (("ctypedef int32_t ArrowErrorCode").toList
        <:+: ("    ctypedef  int32_t ArrowErrorCode").toList) := by
  constructor
  · simp [typedefsCythonL, findTypedefsL, preprocessL, stripCommentsL, subMaxBuffersL,
      findTypedefsP, findTypedefsP_nil, typdefToCythonL, tagStripL_cons, tagStripL_nil,
      tagMatch, tagMatchKw, arrowTok, typedefTok, maxBuffersTok, commentTok, isWS, ind4,
      List.isPrefixOf, c1contentL]
  · decide

/-- C1 (amended): same end-to-end scenario, except that the emitted typedef
line reads `ctypedef  int32_t ArrowErrorCode` (two spaces, since the captured
typedef body retains its leading space); the struct block and the function
line are exactly as the claim states, with the `struct` tag stripped from the
argument. -/
theorem c1_end_to_end :
    typedefsCythonL c1contentL = [("    ctypedef  int32_t ArrowErrorCode").toList] ∧
    typesCythonL c1contentL
      = [("    struct ArrowBuffer:\n        uint8_t* data\n        int64_t size_bytes").toList] ∧
    funcDefsCythonL c1contentL
      = [("    ArrowErrorCode ArrowBufferInit(ArrowBuffer* buffer)").toList] := by
  refine ⟨?_, ?_, ?_⟩
  · simp [typedefsCythonL, findTypedefsL, preprocessL, stripCommentsL, subMaxBuffersL,
      findTypedefsP, findTypedefsP_nil, typdefToCythonL, tagStripL_cons, tagStripL_nil,
      tagMatch, tagMatchKw, arrowTok, typedefTok, maxBuffersTok, commentTok, isWS, ind4,
      List.isPrefixOf, c1contentL]
  · simp [typesCythonL, findTypesL, preprocessL, stripCommentsL, subMaxBuffersL,
      findTypesP_cons, findTypesP_nil, matchType, matchTypeKw, typeToCythonL, typeItemsL,
      delimFor, splitDelimL, stripL, tagStripL_cons, tagStripL_nil, tagMatch, tagMatchKw,
      arrowTok, maxBuffersTok, commentTok, isWS, ind4, List.isPrefixOf, c1contentL]
  · simp [funcDefsCythonL, findFuncDefsL, preprocessL, stripCommentsL, subMaxBuffersL,
      findFuncDefsP_cons, findFuncDefsP_nil, matchFuncBody, matchFuncConst, matchFuncTag,
      matchFuncCore, tryDrop, funcDefToCythonL, wsCollapseL, stripL, tagStripL_cons,
      tagStripL_nil, tagMatch, tagMatchKw, arrowTok, maxBuffersTok, commentTok, isWS,
      isRtChar, isAlnum, ind4, List.isPrefixOf, c1contentL]

/-- C2 (counterexample): the aggregator's substitution (line 190) matches
only the quoted form `#include "` — an angle-bracket include is left in the
output even though the claim says every `#include` line is removed — and it
is not anchored to the start of a line: a mid-line `#include "` is deleted to
the end of the line even though the claim only removes lines beginning with
`#include`. -/
theorem c2_counterexample :
    generateContentsL [("#include <stdint.h>").toList] = ("#include <stdint.h>").toList ∧
    specAggregateL [("#include <stdint.h>").toList] = [] ∧
    generateContentsL [("int x; #include \"nanoarrow.h\"").toList] = ("int x; ").toList := by
  refine ⟨?_, ?_, ?_⟩
  · simp [generateContentsL, joinNL, stripIncludesL, includeTok, List.isPrefixOf]
  · simp [specAggregateL, splitLinesL, joinNL, List.isPrefixOf]
  · simp [generateContentsL, joinNL, stripIncludesL, includeTok, List.isPrefixOf]

/-- C2 (amended): the Header Aggregator newline-joins the file contents in
list order, after which every occurrence of `#include "` (quoted form only)
is removed together with the remainder of its line; equivalently, each line
is truncated at its first `#include "`.  Angle-bracket includes are not
removed. -/
theorem c2_include_stripping (hs : List (List Char)) :
    generateContentsL hs = joinNL ((splitLinesL (joinNL hs)).map truncIncL) :=
  stripIncludes_linewise (joinNL hs)

/-- C3: for every function prototype the supported grammar (`re_func_def`)
extracts from a source text, the emitted binding line is
`[const ]<return_type> <name>(<args>)`, where the argument list is the
captured argument text with internal whitespace collapsed to single spaces
(its whitespace-separated words joined by single spaces), tag-keyword
references stripped, and a resulting literal `void` rendered as empty
parentheses. -/
theorem c3_func_line_format (content : List Char) (d : FuncRec)
    (hd : d ∈ findFuncDefsL content) (indent : List Char) :
    funcDefToCythonL d indent =
      indent ++ (if d.isConst then ("const ").toList else [])
        ++ d.returnType ++ ' ' :: d.name ++ '(' ::
        (if tagStripL (joinSpace (wordsL d.args)) = ("void").toList then []
          else tagStripL (joinSpace (wordsL d.args))) ++ [')'] := by
  obtain ⟨pr, hpr, rfl⟩ := List.mem_map.mp hd
  have hrt := findFuncDefsP_goodRt 0 content pr hpr
  unfold funcDefToCythonL
  rw [wsCollapse_strip_eq_joinWords, stripL_eq_self_of_rt hrt.2]
  cases hq : pr.snd.isConst <;> simp [hq, List.append_assoc]

theorem c3_func_line_format_witness :
    (c3recd ∈ findFuncDefsL c3contentL) ∧
    funcDefToCythonL c3recd ind4 =
      ind4 ++ (if c3recd.isConst then ("const ").toList else [])
        ++ c3recd.returnType ++ ' ' :: c3recd.name ++ '(' ::
        (if tagStripL (joinSpace (wordsL c3recd.args)) = ("void").toList then []
          else tagStripL (joinSpace (wordsL c3recd.args))) ++ [')'] := by
  have hmem : c3recd ∈ findFuncDefsL c3contentL := by
    simp [findFuncDefsL, findFuncDefsP_cons, findFuncDefsP_nil, matchFuncBody,
      matchFuncConst, matchFuncTag, matchFuncCore, tryDrop, arrowTok, isRtChar, isAlnum,
      List.isPrefixOf, c3recd, c3contentL]
  exact ⟨hmem, c3_func_line_format c3contentL c3recd hmem ind4⟩

/-- C4 (counterexample): the record extracted from `struct ArrowX { }` has
body `" "` (a single space).  The code strips the body before splitting, so
it emits 0 member lines, while the claim's count — the non-empty
delimiter-split segments of the record's raw body — is 1, because the split
of `" "` has the single whitespace-only (hence non-empty) segment `" "`. -/
theorem c4_counterexample :
    findTypesL c4contentL = [⟨("struct").toList, ("ArrowX").toList, (" ").toList⟩] ∧
    (typeItemsL ⟨("struct").toList, ("ArrowX").toList, (" ").toList⟩).length = 0 ∧
    ((splitDelimL ';' ((" ").toList)).filter (fun i => i ≠ [])).length = 1 := by
  refine ⟨?_, ?_, ?_⟩
  · simp [findTypesL, findTypesP_cons, findTypesP_nil, matchType, matchTypeKw, arrowTok,
      List.isPrefixOf, c4contentL]
  · simp [typeItemsL, delimFor, stripL, tagStripL_cons, tagStripL_nil, tagMatch,
      tagMatchKw, splitDelimL, isWS, arrowTok, List.isPrefixOf]
  · simp [splitDelimL, isWS]

/-- C4 (amended): for every Tagged Type Record, the number of emitted
member/enumerator items equals the number of non-empty delimiter-split
segments of the record's whitespace-stripped body (`;` for struct/union, `,`
for enum).  The code additionally strips tag keywords before splitting, but
that rewriting changes neither the number of segments nor which are empty. -/
theorem c4_member_count (t : TypeRec) :
    (typeItemsL t).length
      = ((splitDelimL (delimFor t.kind) (stripL t.body)).filter (fun i => i ≠ [])).length := by
  unfold typeItemsL
  exact filter_length_eq_of_isEmpty_map
    (splitDelim_tagStrip_emptiness (delimFor t.kind) (delimFor_not_alpha t.kind)
      (delimFor_ne_space t.kind) (stripL t.body))

/-- C5: within each declaration kind, the match start positions reported by
the scans strictly increase left to right (first-match-first-emitted), and
the emitted declaration lists are exactly the per-record conversions of those
scans' records, in the same order. -/
theorem c5_order_preservation (content : List Char) :
    List.Chain' (· < ·) ((findTypedefsP 0 (preprocessL content)).map Prod.fst) ∧
    List.Chain' (· < ·) ((findTypesP 0 (preprocessL content)).map Prod.fst) ∧
    List.Chain' (· < ·) ((findFuncDefsP 0 (preprocessL content)).map Prod.fst) ∧
    typedefsCythonL content
      = (findTypedefsL (preprocessL content)).map (fun t => typdefToCythonL t ind4) ∧
    typesCythonL content
      = (findTypesL (preprocessL content)).map (fun t => typeToCythonL t ind4) ∧
    funcDefsCythonL content
      = (findFuncDefsL (preprocessL content)).map (fun d => funcDefToCythonL d ind4) :=
  ⟨(findTypedefsP_mono 0 _).2, (findTypesP_mono 0 _).2, (findFuncDefsP_mono 0 _).2,
    rfl, rfl, rfl⟩

/-- C6: the macro substitution of line 33 replaces every literal occurrence
of `NANOARROW_MAX_FIXED_BUFFERS` by `3`: the result equals the input split at
the token's occurrences and rejoined with `3`, and the replacement also fires
inside otherwise-unrelated text spans (no word boundary). -/
theorem c6_macro_substitution :
    (∀ s : List Char, subMaxBuffersL s = joinWith3 (splitMaxBuffersTok s)) ∧
      subMaxBuffersL (("xNANOARROW_MAX_FIXED_BUFFERSy").toList) = ("x3y").toList :=
  ⟨subMaxBuffers_eq_join_split, by simp [subMaxBuffersL, maxBuffersTok]⟩

/-- C7: the translator is deterministic — it is a pure function of the
source text, so two runs on equal input produce byte-identical output. -/
theorem c7_deterministic (s t : List Char) (h : s = t) :
    generatePxdL s = generatePxdL t := by
  rw [h]

theorem c7_deterministic_witness :
    c1contentL = c1contentL ∧ generatePxdL c1contentL = generatePxdL c1contentL :=
  ⟨rfl, c7_deterministic c1contentL c1contentL rfl⟩

/-- C8: if any file of the fixed header list is missing or unreadable, the
program fails while aggregating, before the translator runs, and no output is
produced. -/
theorem c8_missing_header_aborts (fs : String → Option (List Char))
    (h : ∃ f ∈ headerFiles, fs f = none) : mainRunL fs = none := by
  unfold mainRunL generateNanoarrowC
  rw [readHeaders_none h]

theorem c8_missing_header_aborts_witness :
    (∃ f ∈ headerFiles, (fun _ : String => (none : Option (List Char))) f = none) ∧
      mainRunL (fun _ : String => (none : Option (List Char))) = none :=
  ⟨⟨"nanoarrow_types.h", by simp [headerFiles], rfl⟩,
    c8_missing_header_aborts _ ⟨"nanoarrow_types.h", by simp [headerFiles], rfl⟩⟩

/-- C9: extraction and translation are total functions of the input — no
input raises — and a construct outside the supported grammar (here a
prototype with a function-pointer argument, whose nested parentheses the
pattern cannot match) silently contributes zero records while the remaining
supported prototype is still extracted and translated. -/
theorem c9_malformed_silent :
    (∀ content : List Char, ∃ out : List Char, generatePxdL content = out) ∧
    findTypedefsL c9contentL = [] ∧
    findTypesL c9contentL = [] ∧
    findFuncDefsL c9contentL
      = [⟨false, ("ArrowErrorCode").toList, ("ArrowGood").toList, ("void").toList⟩] ∧
    funcDefsCythonL c9contentL = [("    ArrowErrorCode ArrowGood()").toList] := by
  refine ⟨fun content => ⟨_, rfl⟩, ?_, ?_, ?_, ?_⟩
  · simp [findTypedefsL, findTypedefsP, findTypedefsP_nil, typedefTok, List.isPrefixOf,
      c9contentL]
  · simp [findTypesL, findTypesP_cons, findTypesP_nil, matchType, matchTypeKw, arrowTok,
      List.isPrefixOf, c9contentL]
  · simp [findFuncDefsL, findFuncDefsP_cons, findFuncDefsP_nil, matchFuncBody,
      matchFuncConst, matchFuncTag, matchFuncCore, tryDrop, arrowTok, isRtChar, isAlnum,
      List.isPrefixOf, c9contentL]
  · simp [funcDefsCythonL, findFuncDefsL, preprocessL, stripCommentsL, subMaxBuffersL,
      findFuncDefsP_cons, findFuncDefsP_nil, matchFuncBody, matchFuncConst, matchFuncTag,
      matchFuncCore, tryDrop, funcDefToCythonL, wsCollapseL, stripL, tagStripL_cons,
      tagStripL_nil, tagMatch, tagMatchKw, arrowTok, maxBuffersTok, commentTok, isWS,
      isRtChar, isAlnum, ind4, List.isPrefixOf, c9contentL]

/-- C10 (counterexample): the claim says every occurrence of the literal
`typedef` yields a record whose body is the following text up to the next
`;`.  In `typedef;` the token occurs at position 0 and the following text up
to the `;` is empty, but `[^;]+` requires at least one character, so the
extraction yields no record at all. -/
theorem c10_counterexample :
    typedefTok.isPrefixOf (("typedef;").toList) = true ∧
    findTypedefsL (("typedef;").toList) = [] := by
  constructor
  · decide
  · simp [findTypedefsL, findTypedefsP, findTypedefsP_nil, typedefTok, List.isPrefixOf]

/-- C10 (amended): every occurrence of the literal `typedef` that is followed
by at least one non-`;` character (and not contained in an earlier match)
yields a Typedef Record whose body is the maximal nonempty run of non-`;`
characters following it, with no library-prefix filter and no word boundary;
in particular `typedef int my_type;` produces a `ctypedef` line although
`my_type` has no `Arrow` prefix. -/
theorem c10_typedef_extraction :
    (∀ body post : List Char, body ≠ [] → (∀ c ∈ body, ¬ c = ';') →
      findTypedefsL (typedefTok ++ (body ++ ';' :: post)) = body :: findTypedefsL post) ∧
    typedefsCythonL (("typedef int my_type;").toList)
      = [("    ctypedef  int my_type").toList] := by
  constructor
  · intro body post h1 h2
    exact findTypedefs_anchor body post h1 h2
  · simp [typedefsCythonL, findTypedefsL, preprocessL, stripCommentsL, subMaxBuffersL,
      findTypedefsP, findTypedefsP_nil, typdefToCythonL, tagStripL_cons, tagStripL_nil,
      tagMatch, tagMatchKw, arrowTok, typedefTok, maxBuffersTok, commentTok, isWS, ind4,
      List.isPrefixOf]

theorem c10_typedef_extraction_witness :
    ((" int my_type").toList ≠ [] ∧ (∀ c ∈ (" int my_type").toList, ¬ c = ';')) ∧
    findTypedefsL (typedefTok ++ ((" int my_type").toList ++ ';' :: []))
      = (" int my_type").toList :: findTypedefsL [] :=
  ⟨⟨by decide, by decide⟩,
    c10_typedef_extraction.1 ((" int my_type").toList) [] (by decide) (by decide)⟩

end Bootstrap
